import Mathlib

set_option maxHeartbeats 1000000

namespace MongoFrames

/-- Model of a Python value as stored in a MongoFrames document. Dictionaries
are association lists preserving insertion order (Python 3.7+ dict semantics);
`cls` models a Frame/SubFrame class object (identified by name); `frame` models
a constructed Frame/SubFrame instance wrapping its `_document`. -/
inductive PyVal : Type where
  | none : PyVal
  | bool (b : Bool) : PyVal
  | int (n : Int) : PyVal
  | str (s : String) : PyVal
  | id (n : Nat) : PyVal
  | list (xs : List PyVal) : PyVal
  | dict (es : List (String × PyVal)) : PyVal
  | cls (name : String) : PyVal
  | frame (clsName : String) (doc : PyVal) : PyVal

mutual

/-- Structural boolean equality on Python values (Python `==` on the modelled
value universe; identifiers, strings etc. compare by value). -/
def PyVal.beq : PyVal → PyVal → Bool
  | .none, .none => true
  | .bool a, .bool b => a == b
  | .int a, .int b => a == b
  | .str a, .str b => a == b
  | .id a, .id b => a == b
  | .list xs, .list ys => PyVal.beqList xs ys
  | .dict es, .dict fs => PyVal.beqDict es fs
  | .cls a, .cls b => a == b
  | .frame c d, .frame c2 d2 => c == c2 && PyVal.beq d d2
  | _, _ => false

def PyVal.beqList : List PyVal → List PyVal → Bool
  | [], [] => true
  | x :: xs, y :: ys => PyVal.beq x y && PyVal.beqList xs ys
  | _, _ => false

def PyVal.beqDict : List (String × PyVal) → List (String × PyVal) → Bool
  | [], [] => true
  | (k, v) :: xs, (k2, v2) :: ys =>
      k == k2 && PyVal.beq v v2 && PyVal.beqDict xs ys
  | _, _ => false

end

mutual

theorem PyVal.beq_iff : ∀ a b : PyVal, PyVal.beq a b = true ↔ a = b
  | .none, b => by cases b <;> simp [PyVal.beq]
  | .bool a, b => by cases b <;> simp [PyVal.beq]
  | .int a, b => by cases b <;> simp [PyVal.beq]
  | .str a, b => by cases b <;> simp [PyVal.beq]
  | .id a, b => by cases b <;> simp [PyVal.beq]
  | .list xs, b => by
      have ih := fun ys => PyVal.beqList_iff xs ys
      cases b <;> simp [PyVal.beq, ih]
  | .dict es, b => by
      have ih := fun fs => PyVal.beqDict_iff es fs
      cases b <;> simp [PyVal.beq, ih]
  | .cls a, b => by cases b <;> simp [PyVal.beq]
  | .frame c d, b => by
      have ih := fun d2 => PyVal.beq_iff d d2
      cases b <;> simp [PyVal.beq, ih]
termination_by a _ => sizeOf a

theorem PyVal.beqList_iff : ∀ a b : List PyVal, PyVal.beqList a b = true ↔ a = b
  | [], b => by cases b <;> simp [PyVal.beqList]
  | x :: xs, b => by
      have ih1 := fun y => PyVal.beq_iff x y
      have ih2 := fun ys => PyVal.beqList_iff xs ys
      cases b <;> simp [PyVal.beqList, ih1, ih2]
termination_by a _ => sizeOf a

theorem PyVal.beqDict_iff :
    ∀ a b : List (String × PyVal), PyVal.beqDict a b = true ↔ a = b
  | [], b => by cases b <;> simp [PyVal.beqDict]
  | (k, v) :: xs, b => by
      have ih1 := fun y => PyVal.beq_iff v y
      have ih2 := fun ys => PyVal.beqDict_iff xs ys
      cases b with
      | nil => simp [PyVal.beqDict]
      | cons hd tl =>
          obtain ⟨k2, v2⟩ := hd
          simp [PyVal.beqDict, ih1, ih2, and_assoc]
termination_by a _ => sizeOf a

end

instance : DecidableEq PyVal := fun a b =>
  decidable_of_iff (PyVal.beq a b = true) (PyVal.beq_iff a b)

instance {α β : Type} [DecidableEq α] [DecidableEq β] :
    DecidableEq (Except α β) := fun a b =>
  match a, b with
  | .ok x, .ok y => decidable_of_iff (x = y) (by simp)
  | .error x, .error y => decidable_of_iff (x = y) (by simp)
  | .ok _, .error _ => isFalse (by simp)
  | .error _, .ok _ => isFalse (by simp)

@[simp] theorem except_ok_bind {ε α β : Type} (x : α) (f : α → Except ε β) :
    (Except.ok x >>= f) = f x := rfl

@[simp] theorem except_error_bind {ε α β : Type} (e : ε) (f : α → Except ε β) :
    ((Except.error e : Except ε α) >>= f) = Except.error e := rfl

@[simp] theorem except_ok_bind_m {ε α β : Type} (x : α) (f : α → Except ε β) :
    (Except.ok x).bind f = f x := rfl

@[simp] theorem except_error_bind_m {ε α β : Type} (e : ε) (f : α → Except ε β) :
    (Except.error e : Except ε α).bind f = Except.error e := rfl

@[simp] theorem except_map_ok {ε α β : Type} (g : α → β) (x : α) :
    (Except.ok x : Except ε α).map g = Except.ok (g x) := rfl

@[simp] theorem except_map_error {ε α β : Type} (g : α → β) (e : ε) :
    (Except.error e : Except ε α).map g = Except.error e := rfl

@[simp] theorem except_pure_eq {ε α : Type} (x : α) :
    (pure x : Except ε α) = Except.ok x := rfl

@[simp] theorem option_some_bind {α β : Type} (a : α) (f : α → Option β) :
    (some a >>= f) = f a := rfl

@[simp] theorem option_none_bind {α β : Type} (f : α → Option β) :
    ((Option.none : Option α) >>= f) = Option.none := rfl

@[simp] theorem option_some_bind_m {α β : Type} (a : α) (f : α → Option β) :
    (Option.some a).bind f = f a := rfl

@[simp] theorem option_none_bind_m {α β : Type} (f : α → Option β) :
    (Option.none : Option α).bind f = Option.none := rfl

@[simp] theorem option_pure_eq {α : Type} (x : α) :
    (pure x : Option α) = some x := rfl

/-! ### Dictionary primitives

Python dictionaries are modelled as association lists in insertion order
(Python 3.7+ guarantees iteration in insertion order).  Assignment to an
existing key keeps its position; assignment to a new key appends. -/

/-- Raw lookup (`k in d` / `d[k]`): first binding of `k`, if any. -/
def dlookupG {β : Type} : List (String × β) → String → Option β
  | [], _ => Option.none
  | (k2, v2) :: rest, k => if k2 = k then some v2 else dlookupG rest k

/-- Python `d[k] = v`: replace in place if present, else append. -/
def dinsertG {β : Type} : List (String × β) → String → β → List (String × β)
  | [], k, v => [(k, v)]
  | (k2, v2) :: rest, k, v =>
      if k2 = k then (k, v) :: rest else (k2, v2) :: dinsertG rest k v

/-- Python `d.pop(k, None)` (the dictionary after removal). -/
def dpopG {β : Type} : List (String × β) → String → List (String × β)
  | [], _ => []
  | (k2, v2) :: rest, k => if k2 = k then rest else (k2, v2) :: dpopG rest k

abbrev PyDict := List (String × PyVal)

def dlookup (es : PyDict) (k : String) : Option PyVal := dlookupG es k

/-- Python `d.get(k)`, i.e. `d.get(k, None)`: a stored `None` and an absent
key both read as `None`. -/
def dget (es : PyDict) (k : String) : PyVal := (dlookup es k).getD .none

/-- Python `k in d`. -/
def dmem (es : PyDict) (k : String) : Bool := (dlookup es k).isSome

def dinsert (es : PyDict) (k : String) (v : PyVal) : PyDict := dinsertG es k v

def dpop (es : PyDict) (k : String) : PyDict := dpopG es k

/-- Python truthiness (`bool(v)`) on the modelled value universe:
`None`, `False`, `0`, `''`, `[]` and `{}` are falsy; identifiers, class
objects and Frame instances are truthy. -/
def PyVal.falsy : PyVal → Bool
  | .none => true
  | .bool b => !b
  | .int n => n == 0
  | .str s => s == ""
  | .list xs => xs.isEmpty
  | .dict es => es.isEmpty
  | _ => false

def PyVal.isDict : PyVal → Bool
  | .dict _ => true
  | _ => false

/-! ### PathResolver: `_path_to_keys`, `_path_to_value`, write-back -/

/-- Python `str.split('.')` over the character sequence: segments between the
dots, in order; empty segments are preserved and the result is never empty. -/
def splitDotAux : List Char → List Char → List String
  | [], acc => [String.mk acc.reverse]
  | c :: cs, acc =>
      if c = '.' then String.mk acc.reverse :: splitDotAux cs []
      else splitDotAux cs (c :: acc)

/-- `_BaseFrame._path_to_keys` (lines 94-103): `path.split('.')`
(the cache is a performance device only and does not change the result). -/
def path_to_keys (path : String) : List String := splitDotAux path.data []

/-- `_BaseFrame.get` (lines 50-51): `self.__dict__['_document'].get(name,
default)`, the two-argument `.get` call on the frame's backing document.  A
dictionary document reads the key (`None` default); a frame document has this
very method, so the call delegates again; any other document (including a
class object, whose unbound `get` bound to the two arguments fails inside the
body on `str.__dict__`) has no usable `get` and raises `AttributeError`. -/
def frame_get : PyVal → String → Except String PyVal
  | .dict es, k => .ok (dget es k)
  | .frame _ d, k => frame_get d k
  | _, _ => .error "AttributeError"

/-- `child_dict.get(key)` as called (with a single argument) by the
`_path_to_value` traversal.  A dictionary reads the key (`None` default); a
Frame/SubFrame instance has a `get` method (lines 50-51) delegating to its
`_document`; on a class object `get` is the unbound `_BaseFrame.get`
function, and the one-argument call is missing the `name` argument and
raises `TypeError`; every other value has no `get` attribute and raises
`AttributeError`. -/
def pyget : PyVal → String → Except String PyVal
  | .dict es, k => .ok (dget es k)
  | .frame _ d, k => frame_get d k
  | .cls _, _ => .error "TypeError"
  | _, _ => .error "AttributeError"

/-- The traversal loop of `_BaseFrame._path_to_value` (lines 105-117) over an
explicit key list.  For every key but the last: `child = child.get(key)`;
a `None` result returns `None`.  The final key is read with `.get` as well. -/
def path_walk : PyVal → List String → Except String PyVal
  | v, [] => .ok v
  | v, [k] => pyget v k
  | v, k :: k2 :: rest => do
      let c ← pyget v k
      if c = PyVal.none then .ok .none else path_walk c (k2 :: rest)

/-- `_BaseFrame._path_to_value` (lines 105-117): value of `root` at the dotted
`path`; `.ok .none` models Python returning `None` (absent), `.error` models a
raised exception. -/
def path_to_value (path : String) (root : PyVal) : Except String PyVal :=
  path_walk root (path_to_keys path)

/-- The write-back traversal shared by `_dereference` (lines 617-621) and
`_apply_sub_frames` (lines 555-559):
`child = document; for key in keys[:-1]: child = child[key]; child[keys[-1]] = value`,
modelled as a pure rebuild.  `child[key]` on a missing key raises `KeyError`;
indexing a non-dictionary with a string key raises `TypeError`. -/
def set_at_keys : PyVal → List String → PyVal → Except String PyVal
  | .dict es, [k], v => .ok (.dict (dinsert es k v))
  | .dict es, k :: k2 :: rest, v =>
      (match dlookup es k with
       | some c => (set_at_keys c (k2 :: rest) v).map (fun c2 => .dict (dinsert es k c2))
       | Option.none => .error "KeyError")
  | _, _, _ => .error "TypeError"

/-! ### ProjectionCompiler: `Frame._flatten_projection` -/

structure FlattenResult where
  flat : PyDict
  refs : List (String × PyDict)
  subs : List (String × PyDict)
  deriving DecidableEq

structure FlattenState where
  flat : PyDict
  refs : List (String × PyDict)
  subs : List (String × PyDict)
  inclusive : Bool
  deriving DecidableEq

def directiveTags : List String := ["$ref", "$sub", "$sub."]

/-- Python `k.startswith('$')`: the first character is `$`. -/
def startsWithDollar (s : String) : Bool :=
  match s.data with
  | [] => false
  | c :: _ => c = '$'

/-- `{k: v for k, v in value.items() if k.startswith('$') and k not in
['$ref', '$sub', '$sub.']}` (lines 644-647): the mongo-operator keys kept in
the flat projection slot. -/
def projectValueOf (es : PyDict) : PyDict :=
  es.filter (fun e => startsWithDollar e.1 && !(directiveTags.contains e.1))

/-- One iteration of the `for key, value in deepcopy(projection).items()` loop
of `Frame._flatten_projection` (lines 639-673). -/
def flatten_step (st : FlattenState) (kv : String × PyVal) : FlattenState :=
  match kv with
  | (key, .dict es) =>
      let pv : PyVal :=
        if (projectValueOf es).isEmpty then .bool true else .dict (projectValueOf es)
      let inclusive2 := if (projectValueOf es).isEmpty then st.inclusive else false
      let refs2 := if dmem es "$ref" then dinsertG st.refs key es else st.refs
      let subs2 :=
        if !(dmem es "$ref") && (dmem es "$sub" || dmem es "$sub.") then
          dinsertG st.subs key es
        else st.subs
      ⟨dinsert st.flat key pv, refs2, subs2, inclusive2⟩
  | (key, v) =>
      if key ∈ directiveTags then st
      else ⟨dinsert st.flat key v, st.refs, st.subs, false⟩

/-- `{f: True for f in cls._fields}`; `fields` models the iteration sequence
of the class's declared field set. -/
def allFieldsProjection (fields : List String) : PyDict :=
  fields.map (fun f => (f, .bool true))

/-- `Frame._flatten_projection` (lines 623-680).  A caller-supplied `None`
projection is modelled by the empty dictionary (both are falsy and take the
first branch).  `deepcopy` is value copying, hence the identity in this pure
model (the mutation discipline is studied separately in the heap model
below). -/
def flatten_finish (fields : List String) (st : FlattenState) : FlattenResult :=
  if st.inclusive then ⟨allFieldsProjection fields, st.refs, st.subs⟩
  else ⟨st.flat, st.refs, st.subs⟩

def flatten_projection (fields : List String) (projection : PyDict) :
    FlattenResult :=
  if projection.isEmpty then ⟨allFieldsProjection fields, [], []⟩
  else flatten_finish fields (projection.foldl flatten_step ⟨[], [], [], true⟩)

/-! ### `_BaseFrame.__getattr__` -/

/-- `_BaseFrame.__getattr__` (lines 32-37) for an instance whose `_document`
attribute is set (`__init__` always sets it): a name in the declared field set
reads `self._document.get(name, None)`; any other name raises
`AttributeError`. -/
def getattr_model (fields : List String) (doc : PyDict) (name : String) :
    Except String PyVal :=
  if name ∈ fields then .ok (dget doc name) else .error "AttributeError"

/-! ### ReferenceResolver: `Frame._dereference` -/

/-- One fetch issued by `_dereference` (lines 594-597):
`ref.many({'_id': {'$in': list(ids)}}, projection=projection)`, recorded as
the target class name, the id list of the `$in` filter, and the nested
projection passed on. -/
structure FetchCall where
  target : String
  ids : List PyVal
  projection : PyDict
  deriving DecidableEq

/-- Python `set.add`, modelled as an insertion-ordered duplicate-free list. -/
def setAdd (acc : List PyVal) (v : PyVal) : List PyVal :=
  if v ∈ acc then acc else acc ++ [v]

/-- Python `set.update` with an iterable. -/
def setAddMany (acc : List PyVal) (vs : List PyVal) : List PyVal :=
  vs.foldl setAdd acc

/-- The identifier-collection phase of `_dereference` (lines 576-590): for
each document take the value at `path`; skip falsy values; a list contributes
its elements (`ids.update(value)`), a dictionary its values
(`ids.update(value.values())`), anything else contributes itself
(`ids.add(value)`). -/
def idsOfValue : PyVal → List PyVal
  | .list xs => xs
  | .dict es => es.map Prod.snd
  | v => [v]

def collectIdsFrom (path : String) (acc : List PyVal) :
    List PyVal → Except String (List PyVal)
  | [] => .ok acc
  | doc :: docs => do
      let v ← path_to_value path doc
      let acc2 := if v.falsy then acc else setAddMany acc (idsOfValue v)
      collectIdsFrom path acc2 docs

def collectIds (path : String) (docs : List PyVal) : Except String (List PyVal) :=
  collectIdsFrom path [] docs

/-- `f._id` of a fetched frame: `__getattr__` reads `_document.get('_id')`
(`_id` is always a declared field, enforced by `_FrameMeta`); reading it on a
non-frame or a frame wrapping a non-dictionary raises. -/
def frameId : PyVal → Except String PyVal
  | .frame _ (.dict es) => .ok (dget es "_id")
  | _ => .error "AttributeError"

/-- Association map keyed by Python values (for `{f._id: f}`). -/
def pinsert : List (PyVal × PyVal) → PyVal → PyVal → List (PyVal × PyVal)
  | [], k, v => [(k, v)]
  | (k2, v2) :: rest, k, v =>
      if k2 = k then (k, v) :: rest else (k2, v2) :: pinsert rest k v

def pget : List (PyVal × PyVal) → PyVal → Option PyVal
  | [], _ => Option.none
  | (k2, v2) :: rest, k => if k2 = k then some v2 else pget rest k

/-- `frames = {f._id: f for f in frames}` (line 598); a duplicate `_id` later
in the fetch result overwrites the earlier binding. -/
def framesByIdFrom (m : List (PyVal × PyVal)) :
    List PyVal → Except String (List (PyVal × PyVal))
  | [] => .ok m
  | f :: fs => do
      let i ← frameId f
      framesByIdFrom (pinsert m i f) fs

def framesById (frames : List PyVal) : Except String (List (PyVal × PyVal)) :=
  framesByIdFrom [] frames

/-- The substitution applied to a truthy value at a reference path
(lines 606-615): a list becomes `[frames[id] for id in value if id in frames]`
(dangling identifiers dropped, order preserved); a dictionary becomes
`{key: frames.get(id) for key, id in value.items()}` (dangling identifiers map
to `None`); any other value becomes `frames.get(value, None)`. -/
def deref_value (m : List (PyVal × PyVal)) : PyVal → PyVal
  | .list xs => .list (xs.filterMap (pget m))
  | .dict es => .dict (es.map (fun e => (e.1, (pget m e.2).getD PyVal.none)))
  | v => (pget m v).getD PyVal.none

/-- The write-back loop of `_dereference` (lines 600-621): every document
with a truthy value at `path` has that value replaced by `deref_value`;
falsy values are left untouched (`if not value: continue`). -/
def deref_writeback (m : List (PyVal × PyVal)) (path : String) :
    List PyVal → Except String (List PyVal)
  | [] => .ok []
  | doc :: docs => do
      let v ← path_to_value path doc
      let doc2 ←
        if v.falsy then pure doc
        else set_at_keys doc (path_to_keys path) (deref_value m v)
      let docs2 ← deref_writeback m path docs
      pure (doc2 :: docs2)

/-- One iteration of the outer loop of `Frame._dereference` (lines 570-621)
for the table entry `(path, proj)`: entries without a `$ref` key are skipped
with no fetch; otherwise the identifiers of all documents are collected into
one set and the single batched call
`ref.many({'_id': {'$in': list(ids)}}, projection=proj-without-$ref)` is
issued, recorded as a `FetchCall` and executed by the `fetch` collaborator. -/
def deref_entry (fetch : FetchCall → Except String (List PyVal))
    (docs : List PyVal) (path : String) (proj : PyDict) :
    Except String (List PyVal × Option FetchCall) :=
  if !(dmem proj "$ref") then .ok (docs, Option.none)
  else do
    let ids ← collectIds path docs
    match dget proj "$ref" with
    | .cls t => do
        let call : FetchCall := ⟨t, ids, dpop proj "$ref"⟩
        let frames ← fetch call
        let m ← framesById frames
        let docs2 ← deref_writeback m path docs
        pure (docs2, some call)
    | _ => .error "AttributeError"

/-- `Frame._dereference` (lines 565-621) over the whole reference table,
entries processed in order, additionally returning the chronological sequence
of fetch calls issued (the batched round trips). -/
def dereference (fetch : FetchCall → Except String (List PyVal))
    (docs : List PyVal) : List (String × PyDict) →
    Except String (List PyVal × List FetchCall)
  | [] => .ok (docs, [])
  | (path, proj) :: rest => do
      let (docs1, c) ← deref_entry fetch docs path proj
      let (docs2, log) ← dereference fetch docs1 rest
      pure (docs2, c.toList ++ log)

/-! ### EmbeddingResolver: `Frame._apply_sub_frames` / `SubFrame._apply_projection`

The Python code first wraps the raw embedded documents in sub-frames (which
alias them) and then lets `sub._apply_projection` (line 563) mutate the shared
raw documents in place.  The pure model computes the resolved raw
sub-documents first and substitutes them positionally while wrapping, which
yields the same final object graph as the aliased in-place mutation. -/

/-- `sub(v)`: constructing a sub-frame from any value (`_BaseFrame.__init__`
stores the argument as the `_document` unchecked); calling a non-class raises
`TypeError`. -/
def mkSub : PyVal → PyVal → Except String PyVal
  | .cls n, v => .ok (.frame n v)
  | _, _ => .error "TypeError"

/-- The `raw_subs` accumulation of `_apply_sub_frames` (lines 525-553): per
document, a `None` value is skipped; in the map variant a dictionary
contributes all its values (`raw_subs += value.values()`); a single
dictionary contributes itself; a list contributes all its elements
(`raw_subs += value`); any other value raises
`TypeError('Not a supported sub-frame type')`. -/
def raw_of_value (expectMap : Bool) : PyVal → Except String (List PyVal)
  | .none => .ok []
  | .dict es => if expectMap then .ok (es.map Prod.snd) else .ok [.dict es]
  | .list xs => .ok xs
  | _ => .error "TypeError"

def collect_raw (expectMap : Bool) (path : String) :
    List PyVal → Except String (List PyVal)
  | [] => .ok []
  | doc :: docs => do
      let v ← path_to_value path doc
      let r ← raw_of_value expectMap v
      let rs ← collect_raw expectMap path docs
      pure (r ++ rs)

/-- Wrapping of the map variant (lines 532-540): each entry's value is
consumed from the resolved `pending` list positionally; a list value keeps its
slot but is rebuilt from its own elements
(`[sub(u) for u in v if isinstance(u, dict)]`, untouched by resolution); any
other value is wrapped unconditionally (`value[k] = sub(v)`). -/
def wrap_elems (sub : PyVal) : List PyVal → Except String (List PyVal)
  | [] => .ok []
  | w :: rest =>
      if w.isDict then do
        let s ← mkSub sub w
        let ss ← wrap_elems sub rest
        pure (s :: ss)
      else wrap_elems sub rest

/-- Wrap the elements of a list value: `p.1` is the original element (the
`isinstance(v, dict)` test), `p.2` its resolved counterpart (the object the
constructed sub-frame holds after the in-place nested resolution). -/
def wrap_pairs (sub : PyVal) : List (PyVal × PyVal) → Except String (List PyVal)
  | [] => .ok []
  | (x, r) :: rest =>
      if x.isDict then do
        let s ← mkSub sub r
        let ss ← wrap_pairs sub rest
        pure (s :: ss)
      else wrap_pairs sub rest

def wrap_map_entries (sub : PyVal) :
    PyDict → List PyVal → Except String (PyDict × List PyVal)
  | [], pending => pure ([], pending)
  | (k, u) :: rest, pending => do
      match u with
      | .list xs => do
          let ws ← wrap_elems sub xs
          let (rest2, pending2) ← wrap_map_entries sub rest (pending.drop 1)
          pure ((k, PyVal.list ws) :: rest2, pending2)
      | _ =>
          match pending with
          | r :: pending2 => do
              let s ← mkSub sub r
              let (rest2, pending3) ← wrap_map_entries sub rest pending2
              pure ((k, s) :: rest2, pending3)
          | [] => .error "model-invariant"

/-- The write-back of one document in `_apply_sub_frames` (lines 526-559),
consuming resolved raw sub-documents from `pending` in collection order:
`None` skips the document; a dictionary becomes one sub-frame (or, in the map
variant, a dictionary of sub-frames with keys preserved); a list becomes the
list of sub-frames of its dictionary elements in order (non-dictionaries
skipped); anything else raises `TypeError`. -/
def wrap_one (sub : PyVal) (expectMap : Bool) (path : String) (doc : PyVal)
    (pending : List PyVal) : Except String (PyVal × List PyVal) := do
  let v ← path_to_value path doc
  match v with
  | .none => pure (doc, pending)
  | .dict es =>
      if expectMap then do
        let (es2, pending2) ← wrap_map_entries sub es pending
        let doc2 ← set_at_keys doc (path_to_keys path) (.dict es2)
        pure (doc2, pending2)
      else
        match pending with
        | r :: pending2 => do
            let w ← mkSub sub r
            let doc2 ← set_at_keys doc (path_to_keys path) w
            pure (doc2, pending2)
        | [] => .error "model-invariant"
  | .list xs => do
      let ws ← wrap_pairs sub (xs.zip (pending.take xs.length))
      let doc2 ← set_at_keys doc (path_to_keys path) (.list ws)
      pure (doc2, pending.drop xs.length)
  | _ => .error "TypeError"

def wrap_docs (sub : PyVal) (expectMap : Bool) (path : String) :
    List PyVal → List PyVal → Except String (List PyVal × List PyVal)
  | [], pending => pure ([], pending)
  | doc :: docs, pending => do
      let (doc2, pending2) ← wrap_one sub expectMap path doc pending
      let (docs2, pending3) ← wrap_docs sub expectMap path docs pending2
      pure (doc2 :: docs2, pending3)

/-- The reference table extracted by `SubFrame._apply_projection`
(lines 782-794): entries of the deep-copied projection whose value is a
dictionary containing `$ref`. -/
def extract_refs (projection : PyDict) : List (String × PyDict) :=
  projection.foldl (fun acc e =>
    match e.2 with
    | .dict es => if dmem es "$ref" then dinsertG acc e.1 es else acc
    | _ => acc) []

/-- The embedding table extracted by `SubFrame._apply_projection`
(lines 782-794): dictionary values containing `$sub` or `$sub.` (and no
`$ref`, which takes precedence). -/
def extract_subs (projection : PyDict) : List (String × PyDict) :=
  projection.foldl (fun acc e =>
    match e.2 with
    | .dict es =>
        if !(dmem es "$ref") && (dmem es "$sub" || dmem es "$sub.") then
          dinsertG acc e.1 es
        else acc
    | _ => acc) []

mutual

/-- `Frame._apply_sub_frames` (lines 506-563): process each embedding-table
entry in order.  Recursion through `SubFrame._apply_projection` is bounded by
`fuel` (strictly larger than the projection nesting depth in every use). -/
def apply_sub_frames (fuel : Nat) (fetch : FetchCall → Except String (List PyVal))
    (docs : List PyVal) (subs : List (String × PyDict)) :
    Except String (List PyVal) :=
  match fuel, subs with
  | 0, _ => .error "fuel"
  | _ + 1, [] => .ok docs
  | fuel + 1, e :: rest => do
      let docs1 ← apply_sub_entry fuel fetch docs e.1 e.2
      apply_sub_frames (fuel + 1) fetch docs1 rest
termination_by (fuel, subs.length)

/-- One entry of the `_apply_sub_frames` loop (lines 511-563): pick the
`$sub`/`$sub.` variant (entries with neither tag are skipped, line 522). -/
def apply_sub_entry (fuel : Nat) (fetch : FetchCall → Except String (List PyVal))
    (docs : List PyVal) (path : String) (proj : PyDict) :
    Except String (List PyVal) :=
  match fuel with
  | 0 => .error "fuel"
  | fuel + 1 =>
      if dmem proj "$sub" then
        apply_sub_entry_core fuel fetch docs path (dget proj "$sub") false
          (dpop proj "$sub")
      else if dmem proj "$sub." then
        apply_sub_entry_core fuel fetch docs path (dget proj "$sub.") true
          (dpop proj "$sub.")
      else pure docs
termination_by (fuel, 0)

/-- Body of one embedding entry: collect the raw sub-documents, resolve them
with the remaining nested projection if it is non-empty (line 562:
`if projection: sub._apply_projection(raw_subs, projection)`), and wrap them
back into the documents. -/
def apply_sub_entry_core (fuel : Nat) (fetch : FetchCall → Except String (List PyVal))
    (docs : List PyVal) (path : String) (sub : PyVal) (expectMap : Bool)
    (projRest : PyDict) : Except String (List PyVal) :=
  match fuel with
  | 0 => .error "fuel"
  | fuel + 1 => do
      let raw ← collect_raw expectMap path docs
      let resolved ←
        if projRest.isEmpty then pure raw
        else apply_projection fuel fetch raw projRest
      let (docs2, _) ← wrap_docs sub expectMap path docs resolved
      pure docs2
termination_by (fuel, 0)

/-- `SubFrame._apply_projection` (lines 779-802): extract reference and
embedding tables from the deep-copied nested projection, then dereference and
apply sub-frames when the respective table is non-empty. -/
def apply_projection (fuel : Nat) (fetch : FetchCall → Except String (List PyVal))
    (docs : List PyVal) (projection : PyDict) : Except String (List PyVal) :=
  match fuel with
  | 0 => .error "fuel"
  | fuel + 1 => do
      let references := extract_refs projection
      let subs := extract_subs projection
      let docs1 ←
        if references.isEmpty then pure docs
        else (dereference fetch docs references).map Prod.fst
      if subs.isEmpty then pure docs1 else apply_sub_frames fuel fetch docs1 subs
termination_by (fuel, 0)

end

/-! ### The query pipeline: `Frame.many` after the storage `find` -/

/-- The post-`find` part of `Frame.many` (lines 479-504): flatten the
projection, dereference when the reference table is non-empty, apply
sub-frames when the embedding table is non-empty, and wrap every raw document
in the frame class (`[cls(d) for d in documents]`).  The storage `find` is the
external collaborator; `found` is its result list.  The fetch-call log of the
dereference pass is returned alongside. -/
def many_pipeline (fuel : Nat) (fetch : FetchCall → Except String (List PyVal))
    (clsName : String) (fields : List String) (projection : PyDict)
    (found : List PyVal) : Except String (List PyVal × List FetchCall) := do
  let r := flatten_projection fields projection
  let (docs1, log) ←
    if r.refs.isEmpty then pure (found, [])
    else dereference fetch found r.refs
  let docs2 ←
    if r.subs.isEmpty then pure docs1
    else apply_sub_frames fuel fetch docs1 r.subs
  pure (docs2.map (fun d => PyVal.frame clsName d), log)

/-- The storage `find` of a modelled referenced collection under the filter
`{'_id': {'$in': ids}}`: the database documents whose `_id` is in the id list,
in database order.  The flat projection is applied by the external store and
never removes the fields the resolution passes read in the scenarios below,
so it is not modelled. -/
def target_find (db : List PyVal) (ids : List PyVal) : List PyVal :=
  db.filter (fun d =>
    match d with
    | .dict es => decide (dget es "_id" ∈ ids)
    | _ => false)

/-- `ref.many(...)` of a modelled referenced collection whose own nested
projections contain no further reference directives (so no second-level
fetch is ever issued): `Frame.many` = storage `find` + `many_pipeline`. -/
def target_many (fuel : Nat) (tname : String) (tfields : List String)
    (db : List PyVal) (call : FetchCall) : Except String (List PyVal) :=
  (many_pipeline fuel (fun _ => .error "unexpected nested reference fetch")
      tname tfields call.projection (target_find db call.ids)).map Prod.fst

/-! ### Helper lemmas on the dictionary and set primitives -/

theorem dinsertG_append {β : Type} (l : List (String × β)) (k : String) (v : β)
    (h : k ∉ l.map Prod.fst) : dinsertG l k v = l ++ [(k, v)] := by
  induction l with
  | nil => rfl
  | cons e rest ih =>
      obtain ⟨k2, v2⟩ := e
      simp only [List.map_cons, List.mem_cons] at h
      push_neg at h
      simp [dinsertG, Ne.symm h.1, ih h.2]

theorem dinsertG_map_fst {β : Type} (l : List (String × β)) (k : String) (v : β) :
    (dinsertG l k v).map Prod.fst = if k ∈ l.map Prod.fst then l.map Prod.fst
      else l.map Prod.fst ++ [k] := by
  induction l with
  | nil => simp [dinsertG]
  | cons e rest ih =>
      obtain ⟨k2, v2⟩ := e
      by_cases hk : k2 = k
      · subst hk; simp [dinsertG]
      · simp only [dinsertG, if_neg hk, List.map_cons, ih]
        by_cases hm : k ∈ rest.map Prod.fst <;>
          simp [hm, Ne.symm hk, List.mem_cons]

theorem setAdd_mem (acc : List PyVal) (v x : PyVal) :
    x ∈ setAdd acc v ↔ x ∈ acc ∨ x = v := by
  unfold setAdd
  split <;> rename_i h
  · constructor
    · exact fun hx => Or.inl hx
    · rintro (hx | rfl) <;> [exact hx; exact h]
  · simp

theorem setAdd_nodup (acc : List PyVal) (v : PyVal) (h : acc.Nodup) :
    (setAdd acc v).Nodup := by
  unfold setAdd
  split <;> rename_i hm
  · exact h
  · simpa [List.nodup_append] using ⟨h, fun hx => hm hx⟩

theorem setAddMany_mem (vs : List PyVal) (acc : List PyVal) (x : PyVal) :
    x ∈ setAddMany acc vs ↔ x ∈ acc ∨ x ∈ vs := by
  induction vs generalizing acc with
  | nil => simp [setAddMany]
  | cons v rest ih =>
      show x ∈ setAddMany (setAdd acc v) rest ↔ _
      rw [ih, setAdd_mem]
      simp [or_assoc]

theorem setAddMany_nodup (vs : List PyVal) (acc : List PyVal) (h : acc.Nodup) :
    (setAddMany acc vs).Nodup := by
  induction vs generalizing acc with
  | nil => exact h
  | cons v rest ih => exact ih _ (setAdd_nodup _ _ h)

/-! ### C7: `_path_to_value` and raised exceptions -/

/-- The values whose single-argument `.get(key)` call succeeds:
dictionaries, and Frame/SubFrame instances whose (possibly nested) backing
document is a dictionary. -/
def hasGet : PyVal → Bool
  | .dict _ => true
  | .frame _ d => hasGet d
  | _ => false

/-- The value a successful `.get(key)` call returns (`None` default),
reading through the frame `get` delegation of lines 50-51. -/
def getv : PyVal → String → PyVal
  | .dict es, k => dget es k
  | .frame _ d, k => getv d k
  | _, _ => PyVal.none

/-- The value shapes on which the `_path_to_value` traversal completes
without an exception: either the walk stops early because an intermediate
segment reads as `None` (missing key or stored `None`), or every present
value the walk reaches — including the final parent — supports the
mapping-style `get`: it is a dictionary or a Frame/SubFrame instance
delegating to a dictionary document. -/
def walk_safe : PyVal → List String → Bool
  | _, [] => true
  | v, [_] => hasGet v
  | v, k :: k2 :: rest =>
      hasGet v &&
        (if getv v k = PyVal.none then true
         else walk_safe (getv v k) (k2 :: rest))

theorem frame_get_ok : ∀ (v : PyVal) (k : String), hasGet v = true →
    frame_get v k = .ok (getv v k)
  | .dict _, _, _ => rfl
  | .frame _ d, k, h => frame_get_ok d k (by simpa [hasGet] using h)
  | .none, _, h => by simp [hasGet] at h
  | .bool _, _, h => by simp [hasGet] at h
  | .int _, _, h => by simp [hasGet] at h
  | .str _, _, h => by simp [hasGet] at h
  | .id _, _, h => by simp [hasGet] at h
  | .list _, _, h => by simp [hasGet] at h
  | .cls _, _, h => by simp [hasGet] at h

theorem frame_get_err : ∀ (v : PyVal) (k : String), hasGet v = false →
    frame_get v k = .error "AttributeError"
  | .dict _, _, h => by simp [hasGet] at h
  | .frame _ d, k, h => frame_get_err d k (by simpa [hasGet] using h)
  | .none, _, _ => rfl
  | .bool _, _, _ => rfl
  | .int _, _, _ => rfl
  | .str _, _, _ => rfl
  | .id _, _, _ => rfl
  | .list _, _, _ => rfl
  | .cls _, _, _ => rfl

theorem pyget_ok (v : PyVal) (k : String) (h : hasGet v = true) :
    pyget v k = .ok (getv v k) := by
  cases v with
  | dict es => rfl
  | frame c d => exact frame_get_ok d k (by simpa [hasGet] using h)
  | none => simp [hasGet] at h
  | bool b => simp [hasGet] at h
  | int n => simp [hasGet] at h
  | str s => simp [hasGet] at h
  | id n => simp [hasGet] at h
  | list xs => simp [hasGet] at h
  | cls c => simp [hasGet] at h

theorem pyget_err (v : PyVal) (k : String) (h : hasGet v = false) :
    pyget v k = .error "AttributeError" ∨ pyget v k = .error "TypeError" := by
  cases v with
  | dict es => simp [hasGet] at h
  | frame c d => exact Or.inl (frame_get_err d k (by simpa [hasGet] using h))
  | cls c => exact Or.inr rfl
  | none => exact Or.inl rfl
  | bool b => exact Or.inl rfl
  | int n => exact Or.inl rfl
  | str s => exact Or.inl rfl
  | id n => exact Or.inl rfl
  | list xs => exact Or.inl rfl

theorem pyget_error_str (v : PyVal) (k e : String)
    (h : pyget v k = .error e) : e = "AttributeError" ∨ e = "TypeError" := by
  cases hg : hasGet v with
  | true => rw [pyget_ok v k hg] at h; exact absurd h (by simp)
  | false =>
      rcases pyget_err v k hg with h2 | h2 <;> rw [h2] at h <;>
        simp only [Except.error.injEq] at h
      · exact Or.inl h.symm
      · exact Or.inr h.symm

theorem path_walk_ok_iff : ∀ (v : PyVal) (keys : List String),
    (∃ u, path_walk v keys = .ok u) ↔ walk_safe v keys = true
  | v, [] => by simp [path_walk, walk_safe]
  | v, [k] => by
      rw [show path_walk v [k] = pyget v k from rfl,
          show walk_safe v [k] = hasGet v from rfl]
      cases hg : hasGet v with
      | true => simp [pyget_ok v k hg]
      | false => rcases pyget_err v k hg with h2 | h2 <;> simp [h2]
  | v, k :: k2 :: rest => by
      rw [show path_walk v (k :: k2 :: rest)
            = (pyget v k >>= fun c =>
                if c = PyVal.none then .ok .none
                else path_walk c (k2 :: rest)) from rfl,
          show walk_safe v (k :: k2 :: rest)
            = (hasGet v &&
                (if getv v k = PyVal.none then true
                 else walk_safe (getv v k) (k2 :: rest))) from rfl]
      cases hg : hasGet v with
      | false => rcases pyget_err v k hg with h2 | h2 <;> rw [h2] <;> simp
      | true =>
          rw [pyget_ok v k hg]
          simp only [except_ok_bind, Bool.true_and]
          by_cases hn : getv v k = PyVal.none
          · simp [hn]
          · rw [if_neg hn, if_neg hn]
            exact path_walk_ok_iff (getv v k) (k2 :: rest)

/-- The only exceptions the `_path_to_value` traversal can raise: the
`AttributeError` of a reached value with no usable `get` attribute, or the
`TypeError` of the one-argument call on a class object's unbound `get`. -/
theorem path_walk_error_cases : ∀ (v : PyVal) (keys : List String) (e : String),
    path_walk v keys = .error e → e = "AttributeError" ∨ e = "TypeError"
  | v, [], e => by simp [path_walk]
  | v, [k], e => by
      rw [show path_walk v [k] = pyget v k from rfl]
      exact pyget_error_str v k e
  | v, k :: k2 :: rest, e => by
      rw [show path_walk v (k :: k2 :: rest)
            = (pyget v k >>= fun c =>
                if c = PyVal.none then .ok .none
                else path_walk c (k2 :: rest)) from rfl]
      cases hp : pyget v k with
      | error e2 =>
          intro h
          simp only [except_error_bind, Except.error.injEq] at h
          subst h
          exact pyget_error_str v k e2 hp
      | ok c =>
          simp only [except_ok_bind]
          by_cases hn : c = PyVal.none
          · simp [hn]
          · rw [if_neg hn]
            exact path_walk_error_cases c (k2 :: rest) e

/-- C7 (amended): for every path string and every root value,
`_path_to_value` returns a value — the walk's result, with `None` whenever an
intermediate segment is missing or reads as `None` — precisely when every
present value reached along the path (including the final parent) supports
the mapping-style `get`: it is a mapping, or a Frame/SubFrame instance
(whose `get` delegates to its backing document, as written into documents by
`_dereference` and walked by `update`).  When a reached present value has no
such `get` the lookup raises instead of returning absent: `AttributeError`
for a value with no `get` attribute, `TypeError` for a class object. -/
theorem pathToValue_ok_iff_walkSafe (path : String) (root : PyVal) :
    ((∃ v, path_to_value path root = .ok v) ↔
        walk_safe root (path_to_keys path) = true) ∧
    (walk_safe root (path_to_keys path) = false →
        ∃ e, (e = "AttributeError" ∨ e = "TypeError") ∧
          path_to_value path root = .error e) := by
  constructor
  · exact path_walk_ok_iff root (path_to_keys path)
  · intro hf
    have h := path_walk_ok_iff root (path_to_keys path)
    rw [hf] at h
    simp only [Bool.false_eq_true, iff_false, not_exists] at h
    unfold path_to_value
    cases he : path_walk root (path_to_keys path) with
    | ok v => exact absurd he (h v)
    | error e =>
        exact ⟨e, path_walk_error_cases root (path_to_keys path) e he, rfl⟩

/-- C7 counterexample: at path `"a.b"` with root `{'a': 5}` the intermediate
value `5` is present but not a mapping, and `_path_to_value` raises
`AttributeError` rather than returning absent — refuting "never raises for
any input shape". -/
theorem pathToValue_raises_on_nonmapping_intermediate :
    path_to_value "a.b" (.dict [("a", .int 5)]) = .error "AttributeError" := by
  decide

/-- C10: `__getattr__` on a declared field name absent from the backing
document returns `None`; on an undeclared name it raises `AttributeError`;
it raises exactly when the name is undeclared. -/
theorem getattr_raises_iff_undeclared (fields : List String) (doc : PyDict)
    (name : String) :
    (getattr_model fields doc name = .error "AttributeError" ↔ name ∉ fields)
    ∧ (name ∈ fields → dlookup doc name = Option.none →
        getattr_model fields doc name = .ok PyVal.none) := by
  constructor
  · unfold getattr_model
    split <;> simp_all
  · intro h1 h2
    simp [getattr_model, h1, dget, h2]

/-- Witness for C10 at concrete inputs: `name` is declared but absent from
the document (reads `None`); `other` is undeclared (raises). -/
theorem getattr_raises_iff_undeclared_witness :
    getattr_model ["_id", "name"] [] "name" = .ok PyVal.none ∧
    getattr_model ["_id", "name"] [] "other" = .error "AttributeError" :=
  ⟨(getattr_raises_iff_undeclared ["_id", "name"] [] "name").2 (by decide) rfl,
   (getattr_raises_iff_undeclared ["_id", "name"] [] "other").1.2 (by decide)⟩

/-- Witness for C7 (amended) at concrete inputs: a Frame instance at
segment `a` is traversed through its `get` without raising, while a class
object at segment `a` makes the lookup raise. -/
theorem pathToValue_ok_iff_walkSafe_witness :
    (∃ v, path_to_value "a.b"
        (.dict [("a", .frame "User" (.dict [("b", .int 7)]))]) = .ok v) ∧
    (∃ e, (e = "AttributeError" ∨ e = "TypeError") ∧
        path_to_value "a.b" (.dict [("a", .cls "User")]) = .error e) :=
  ⟨(pathToValue_ok_iff_walkSafe "a.b"
      (.dict [("a", .frame "User" (.dict [("b", .int 7)]))])).1.mpr (by decide),
   (pathToValue_ok_iff_walkSafe "a.b" (.dict [("a", .cls "User")])).2
      (by decide)⟩

/-! ### C4 / C5: the projection compiler's two modes -/

/-- A pure directive entry: a dictionary value carrying a directive tag and no
other mongo-operator key (no non-tag key starting with `$`). -/
def pureDirectiveEntry (e : String × PyVal) : Prop :=
  ∃ es, e.2 = PyVal.dict es ∧
    (dmem es "$ref" || dmem es "$sub" || dmem es "$sub.") = true ∧
    ∀ e2 ∈ es, startsWithDollar e2.1 = true → e2.1 ∈ directiveTags

/-- The reference table a projection's top level yields: entries whose
dictionary value carries `$ref` (line 654). -/
def refsOf (P : PyDict) : List (String × PyDict) :=
  P.filterMap (fun e =>
    match e.2 with
    | .dict es => if dmem es "$ref" then some (e.1, es) else Option.none
    | _ => Option.none)

/-- The embedding table a projection's top level yields: entries whose
dictionary value carries `$sub`/`$sub.` and no `$ref`, which takes precedence
(lines 654-658). -/
def subsOf (P : PyDict) : List (String × PyDict) :=
  P.filterMap (fun e =>
    match e.2 with
    | .dict es =>
        if !(dmem es "$ref") && (dmem es "$sub" || dmem es "$sub.") then
          some (e.1, es)
        else Option.none
    | _ => Option.none)

theorem flatten_fold_pure_directives (P : PyDict) :
    ∀ (st : FlattenState),
    (∀ e ∈ P, pureDirectiveEntry e) →
    (P.map Prod.fst).Nodup →
    (∀ e ∈ P, e.1 ∉ st.refs.map Prod.fst ∧ e.1 ∉ st.subs.map Prod.fst) →
    (P.foldl flatten_step st).inclusive = st.inclusive ∧
    (P.foldl flatten_step st).refs = st.refs ++ refsOf P ∧
    (P.foldl flatten_step st).subs = st.subs ++ subsOf P := by
  induction P with
  | nil => intro st _ _ _; simp [refsOf, subsOf]
  | cons e P ih =>
      intro st hdir hnod hfresh
      obtain ⟨k, v⟩ := e
      obtain ⟨es, hv, htag, hops⟩ := hdir (k, v) (by simp)
      subst hv
      have hfilter : projectValueOf es = [] := by
        rw [projectValueOf, List.filter_eq_nil_iff]
        intro e2 he2
        by_cases hs : startsWithDollar e2.1 = true
        · simp [hs, hops e2 he2 hs]
        · simp [hs]
      have hincl : (flatten_step st (k, PyVal.dict es)).inclusive = st.inclusive := by
        simp [flatten_step, hfilter]
      have hrefs : (flatten_step st (k, PyVal.dict es)).refs
          = if dmem es "$ref" then dinsertG st.refs k es else st.refs := by
        simp [flatten_step]
      have hsubs : (flatten_step st (k, PyVal.dict es)).subs
          = if !(dmem es "$ref") && (dmem es "$sub" || dmem es "$sub.") then
              dinsertG st.subs k es
            else st.subs := by
        simp [flatten_step]
      simp only [List.foldl_cons]
      have hrest : ∀ e2 ∈ P, pureDirectiveEntry e2 :=
        fun e2 he2 => hdir e2 (by simp [he2])
      have hnod2 : (P.map Prod.fst).Nodup := (List.nodup_cons.mp hnod).2
      have hknotin : k ∉ P.map Prod.fst := by
        have := (List.nodup_cons.mp hnod).1
        simpa using this
      -- freshness is preserved: the step may add the key `k`, which no
      -- remaining entry uses
      have hfresh2 : ∀ e2 ∈ P,
          e2.1 ∉ (flatten_step st (k, PyVal.dict es)).refs.map Prod.fst ∧
          e2.1 ∉ (flatten_step st (k, PyVal.dict es)).subs.map Prod.fst := by
        intro e2 he2
        have hk2 : e2.1 ≠ k := by
          intro hkk
          exact hknotin (hkk ▸ (List.mem_map.mpr ⟨e2, he2, rfl⟩))
        have hf2 := hfresh e2 (by simp [he2])
        rw [hrefs, hsubs]
        constructor
        · split
          · rw [dinsertG_map_fst]
            split <;> simp [hf2.1, hk2]
          · exact hf2.1
        · split
          · rw [dinsertG_map_fst]
            split <;> simp [hf2.2, hk2]
          · exact hf2.2
      obtain ⟨h1, h2, h3⟩ := ih _ hrest hnod2 hfresh2
      refine ⟨by rw [h1, hincl], ?_, ?_⟩
      · rw [h2, hrefs]
        by_cases hr : dmem es "$ref" = true
        · rw [if_pos hr, dinsertG_append _ _ _ (hfresh (k, .dict es) (by simp)).1]
          simp [refsOf, hr, List.filterMap_cons]
        · rw [if_neg hr]
          simp only [Bool.not_eq_true] at hr
          simp [refsOf, hr, List.filterMap_cons]
      · rw [h3, hsubs]
        by_cases hr : dmem es "$ref" = true
        · simp [subsOf, hr, List.filterMap_cons]
        · simp only [Bool.not_eq_true] at hr
          have htag2 : (dmem es "$sub" || dmem es "$sub.") = true := by
            simpa [hr] using htag
          rw [if_pos (by simp [hr, htag2]),
              dinsertG_append _ _ _ (hfresh (k, .dict es) (by simp)).2]
          have htag3 : dmem es "$sub" = true ∨ dmem es "$sub." = true := by
            simpa using htag2
          rcases htag3 with h4 | h4 <;>
            simp [subsOf, hr, h4, List.filterMap_cons]

end MongoFrames
namespace MongoFrames

/-- C4 (amended): an empty (or `None`) projection compiles to the
include-every-declared-field flat projection with empty tables; a non-empty
projection all of whose entries are pure directives (directive-tagged
dictionary values with no sibling mongo-operator keys) compiles to that same
flat projection together with reference/embedding tables holding exactly the
directives present (a `$ref` tag wins over a `$sub`/`$sub.` tag in the same
entry).  A sibling operator key flips the compiler to explicit mode, which is
the correction the counterexample forces. -/
theorem flatten_only_directives (fields : List String) (P : PyDict)
    (hkeys : (P.map Prod.fst).Nodup)
    (hdir : ∀ e ∈ P, pureDirectiveEntry e) :
    flatten_projection fields P
      = ⟨allFieldsProjection fields, refsOf P, subsOf P⟩ := by
  by_cases hP : P.isEmpty = true
  · rw [List.isEmpty_iff] at hP
    subst hP
    simp [flatten_projection, refsOf, subsOf]
  · unfold flatten_projection
    rw [if_neg hP]
    obtain ⟨h1, h2, h3⟩ :=
      flatten_fold_pure_directives P ⟨[], [], [], true⟩ hdir hkeys
        (by intro e _; exact ⟨by simp, by simp⟩)
    unfold flatten_finish
    rw [if_pos (by rw [h1]), h2, h3]
    simp

/-- C4 counterexample: the projection
`{'x': {'$ref': T, '$slice': 5}}` contains only directive entries (its single
entry carries `$ref`) and no plain field flag, yet the compiled flat
projection is `{'x': {'$slice': 5}}`, not the include-all-declared-fields
projection — the sibling operator key flips the compiler to explicit mode. -/
theorem flatten_only_directives_counterexample :
    (∀ e ∈ ([("x", PyVal.dict [("$ref", PyVal.cls "T"), ("$slice", PyVal.int 5)])] :
        PyDict), ∃ es, e.2 = PyVal.dict es ∧ dmem es "$ref" = true ∧
          e.2.isDict = true) ∧
    (flatten_projection ["_id", "name"]
        [("x", .dict [("$ref", .cls "T"), ("$slice", .int 5)])]).flat
      ≠ allFieldsProjection ["_id", "name"] := by
  constructor
  · intro e he
    simp only [List.mem_singleton] at he
    subst he
    exact ⟨_, rfl, by decide, rfl⟩
  · decide

/-- Witness for C4 (amended) at a concrete only-directives projection. -/
theorem flatten_only_directives_witness :
    flatten_projection ["_id", "name"]
        [("author", .dict [("$ref", .cls "User"), ("name", .bool true)]),
         ("meta", .dict [("$sub", .cls "Meta")])]
      = ⟨allFieldsProjection ["_id", "name"],
         [("author", [("$ref", .cls "User"), ("name", .bool true)])],
         [("meta", [("$sub", .cls "Meta")])]⟩ :=
  flatten_only_directives ["_id", "name"] _ (by decide)
    (by
      intro e he
      simp only [List.mem_cons, List.mem_singleton] at he
      rcases he with rfl | rfl | h
      · exact ⟨_, rfl, by decide, by decide⟩
      · exact ⟨_, rfl, by decide, by decide⟩
      · cases h)

end MongoFrames
namespace MongoFrames

/-- Every processed entry whose key is not a stray root directive tag adds
exactly its key to the flat projection, in iteration order. -/
theorem flatten_fold_flat_keys (P : PyDict) :
    ∀ st : FlattenState,
    (∀ e ∈ P, e.1 ∉ directiveTags) →
    (∀ e ∈ P, e.1 ∉ st.flat.map Prod.fst) →
    (P.map Prod.fst).Nodup →
    (P.foldl flatten_step st).flat.map Prod.fst
      = st.flat.map Prod.fst ++ P.map Prod.fst := by
  induction P with
  | nil => intro st _ _ _; simp
  | cons e P ih =>
      intro st hnt hfresh hnod
      obtain ⟨k, v⟩ := e
      have hkt : k ∉ directiveTags := hnt (k, v) (by simp)
      have hfr : k ∉ st.flat.map Prod.fst := hfresh (k, v) (by simp)
      have hstep : (flatten_step st (k, v)).flat.map Prod.fst
          = st.flat.map Prod.fst ++ [k] := by
        cases v <;>
          simp [flatten_step, hkt, dinsert, dinsertG_map_fst, hfr]
      have hnod2 : k ∉ P.map Prod.fst ∧ (P.map Prod.fst).Nodup := by
        simpa [List.nodup_cons] using hnod
      have hfresh2 : ∀ e2 ∈ P, e2.1 ∉ (flatten_step st (k, v)).flat.map Prod.fst := by
        intro e2 he2
        rw [hstep]
        have hk2 : e2.1 ≠ k := fun hkk =>
          hnod2.1 (hkk ▸ (List.mem_map.mpr ⟨e2, he2, rfl⟩))
        simp [hfresh e2 (by simp [he2]), hk2]
      rw [List.foldl_cons,
          ih (flatten_step st (k, v)) (fun e2 he2 => hnt e2 (by simp [he2]))
            hfresh2 hnod2.2,
          hstep]
      simp

/-- Explicit mode is sticky: once `inclusive` is false it stays false. -/
theorem flatten_fold_inclusive_mono (P : PyDict) :
    ∀ st : FlattenState, st.inclusive = false →
    (P.foldl flatten_step st).inclusive = false := by
  induction P with
  | nil => intro st h; exact h
  | cons e P ih =>
      intro st h
      rw [List.foldl_cons]
      apply ih
      obtain ⟨k, v⟩ := e
      cases v <;> simp only [flatten_step] <;> split <;> simp [h]

/-- A plain field flag (non-dictionary value under a non-tag key) anywhere in
the projection forces explicit mode. -/
theorem flatten_fold_plain_flag (P : PyDict) :
    ∀ st : FlattenState,
    (∃ e ∈ P, e.1 ∉ directiveTags ∧ e.2.isDict = false) →
    (P.foldl flatten_step st).inclusive = false := by
  induction P with
  | nil => intro st h; simp at h
  | cons e P ih =>
      intro st h
      rw [List.foldl_cons]
      obtain ⟨e2, he2, hnt, hnd⟩ := h
      rcases List.mem_cons.mp he2 with rfl | hmem
      · apply flatten_fold_inclusive_mono
        obtain ⟨k, v⟩ := e2
        cases v <;> simp_all [flatten_step, PyVal.isDict]
      · exact ih _ ⟨e2, hmem, hnt, hnd⟩

/-- C5: a structured projection whose top-level keys are field names (no
stray root directive tags, no duplicates) and which contains at least one
plain field flag compiles, in explicit mode, to a flat projection whose
fields are exactly the fields named in the projection — in order — no matter
how many reference/embedding directive entries it also contains; the
include-all-declared-fields fallback is not applied. -/
theorem flatten_explicit_mode (fields : List String) (P : PyDict)
    (hkeys : (P.map Prod.fst).Nodup)
    (hnotags : ∀ e ∈ P, e.1 ∉ directiveTags)
    (hflag : ∃ e ∈ P, e.2.isDict = false) :
    (flatten_projection fields P).flat.map Prod.fst = P.map Prod.fst := by
  obtain ⟨e0, he0, hnd0⟩ := hflag
  have hne : ¬(P.isEmpty = true) := by
    cases P
    · simp at he0
    · simp
  unfold flatten_projection
  rw [if_neg hne]
  have hincl := flatten_fold_plain_flag P ⟨[], [], [], true⟩
      ⟨e0, he0, hnotags e0 he0, hnd0⟩
  unfold flatten_finish
  rw [if_neg (by rw [hincl]; simp)]
  have hk := flatten_fold_flat_keys P ⟨[], [], [], true⟩ hnotags
      (by intro e _; simp) hkeys
  simpa using hk

/-- Witness for C5: one plain flag plus one reference directive; the flat
projection names exactly the two projected fields, not the declared set. -/
theorem flatten_explicit_mode_witness :
    (flatten_projection ["_id", "name", "email"]
        [("name", PyVal.bool true),
         ("author", PyVal.dict [("$ref", PyVal.cls "User")])]).flat.map Prod.fst
      = ["name", "author"] :=
  flatten_explicit_mode ["_id", "name", "email"] _ (by decide) (by decide)
    ⟨("name", PyVal.bool true), by decide, rfl⟩

end MongoFrames
namespace MongoFrames

/-! ### Lemmas on identifier collection and write-back -/

theorem collectIdsFrom_append (xs ys : List PyVal) (path : String) :
    ∀ acc, collectIdsFrom path acc (xs ++ ys)
      = (collectIdsFrom path acc xs).bind (fun a2 => collectIdsFrom path a2 ys) := by
  induction xs with
  | nil => intro acc; simp [collectIdsFrom]
  | cons d xs ih =>
      intro acc
      simp only [List.cons_append, collectIdsFrom]
      cases path_to_value path d with
      | error e => simp
      | ok v => simp [ih]

theorem collectIdsFrom_nodup (docs : List PyVal) :
    ∀ (acc : List PyVal) (path : String) (ids : List PyVal), acc.Nodup →
    collectIdsFrom path acc docs = .ok ids → ids.Nodup := by
  induction docs with
  | nil =>
      intro acc path ids hn h
      simp only [collectIdsFrom] at h
      cases h
      exact hn
  | cons d docs ih =>
      intro acc path ids hn h
      simp only [collectIdsFrom] at h
      cases hv : path_to_value path d with
      | error e => rw [hv] at h; simp at h
      | ok v =>
          rw [hv] at h
          simp only [except_ok_bind] at h
          split at h
          · exact ih acc path ids hn h
          · exact ih _ path ids (setAddMany_nodup _ _ hn) h

theorem collectIdsFrom_mem (docs : List PyVal) :
    ∀ (acc : List PyVal) (path : String) (ids : List PyVal) (x : PyVal),
    collectIdsFrom path acc docs = .ok ids →
    (x ∈ ids ↔ x ∈ acc ∨ ∃ doc ∈ docs, ∃ v, path_to_value path doc = .ok v ∧
        v.falsy = false ∧ x ∈ idsOfValue v) := by
  induction docs with
  | nil =>
      intro acc path ids x h
      simp only [collectIdsFrom] at h
      cases h
      simp
  | cons d docs ih =>
      intro acc path ids x h
      simp only [collectIdsFrom] at h
      cases hv : path_to_value path d with
      | error e => rw [hv] at h; simp at h
      | ok v =>
          rw [hv] at h
          simp only [except_ok_bind] at h
          split at h <;> rename_i hfal
          · rw [ih _ _ _ _ h]
            constructor
            · rintro (ha | ⟨doc, hd, w, hw, hf, hx⟩)
              · exact Or.inl ha
              · exact Or.inr ⟨doc, by simp [hd], w, hw, hf, hx⟩
            · rintro (ha | ⟨doc, hd, w, hw, hf, hx⟩)
              · exact Or.inl ha
              · rcases List.mem_cons.mp hd with rfl | hd2
                · rw [hv] at hw; cases hw; rw [hfal] at hf; cases hf
                · exact Or.inr ⟨doc, hd2, w, hw, hf, hx⟩
          · rw [ih _ _ _ _ h, setAddMany_mem]
            constructor
            · rintro ((ha | hxv) | ⟨doc, hd, w, hw, hf, hx⟩)
              · exact Or.inl ha
              · exact Or.inr ⟨d, by simp, v, hv, by simpa using hfal, hxv⟩
              · exact Or.inr ⟨doc, by simp [hd], w, hw, hf, hx⟩
            · rintro (ha | ⟨doc, hd, w, hw, hf, hx⟩)
              · exact Or.inl (Or.inl ha)
              · rcases List.mem_cons.mp hd with rfl | hd2
                · rw [hv] at hw
                  cases hw
                  exact Or.inl (Or.inr hx)
                · exact Or.inr ⟨doc, hd2, w, hw, hf, hx⟩

theorem deref_writeback_append (m : List (PyVal × PyVal)) (path : String)
    (xs ys : List PyVal) :
    deref_writeback m path (xs ++ ys)
      = (deref_writeback m path xs).bind (fun x2 =>
          (deref_writeback m path ys).bind (fun y2 => .ok (x2 ++ y2))) := by
  induction xs with
  | nil =>
      simp only [List.nil_append, deref_writeback]
      cases deref_writeback m path ys <;> simp
  | cons d xs ih =>
      simp only [List.cons_append, deref_writeback]
      cases path_to_value path d with
      | error e => simp
      | ok v =>
          simp only [except_ok_bind, List.append_eq]
          cases hf : v.falsy
          · cases hs : set_at_keys d (path_to_keys path) (deref_value m v) with
            | error e => simp [hf, hs]
            | ok d2 =>
                simp only [hf, hs, Bool.false_eq_true, if_false, except_ok_bind,
                  List.append_eq, ih]
                cases deref_writeback m path xs <;>
                  cases deref_writeback m path ys <;> simp
          · simp only [hf, if_true, except_ok_bind, List.append_eq, ih]
            cases deref_writeback m path xs <;>
              cases deref_writeback m path ys <;> simp

end MongoFrames
namespace MongoFrames

/-- An entry with no `$ref` key is skipped: no fetch, documents untouched. -/
theorem deref_entry_skip (fetch : FetchCall → Except String (List PyVal))
    (docs : List PyVal) (path : String) (proj : PyDict)
    (hmem : dmem proj "$ref" = false) :
    deref_entry fetch docs path proj = .ok (docs, Option.none) := by
  unfold deref_entry
  simp [hmem]

/-- Inversion of a successful `deref_entry` on an entry carrying `$ref`:
exactly one fetch is issued, against the directive's target class, with the
collected identifier set and the remaining projection. -/
theorem deref_entry_ok_inv (fetch : FetchCall → Except String (List PyVal))
    (docs : List PyVal) (path : String) (proj : PyDict) (t : String)
    (hmem : dmem proj "$ref" = true) (hcls : dget proj "$ref" = .cls t)
    (docs2 : List PyVal) (oc : Option FetchCall)
    (h : deref_entry fetch docs path proj = .ok (docs2, oc)) :
    ∃ ids frames m,
      collectIds path docs = .ok ids ∧
      oc = some ⟨t, ids, dpop proj "$ref"⟩ ∧
      fetch ⟨t, ids, dpop proj "$ref"⟩ = .ok frames ∧
      framesById frames = .ok m ∧
      deref_writeback m path docs = .ok docs2 := by
  unfold deref_entry at h
  rw [hmem] at h
  simp only [Bool.not_true, Bool.false_eq_true, if_false] at h
  cases hids : collectIds path docs with
  | error e => rw [hids] at h; simp at h
  | ok ids =>
      rw [hids] at h
      simp only [except_ok_bind] at h
      rw [hcls] at h
      dsimp only at h
      cases hfr : fetch ⟨t, ids, dpop proj "$ref"⟩ with
      | error e => rw [hfr] at h; simp at h
      | ok frames =>
          rw [hfr] at h
          simp only [except_ok_bind] at h
          cases hm : framesById frames with
          | error e => rw [hm] at h; simp at h
          | ok m =>
              rw [hm] at h
              simp only [except_ok_bind] at h
              cases hw : deref_writeback m path docs with
              | error e => rw [hw] at h; simp at h
              | ok d2 =>
                  rw [hw] at h
                  simp only [except_ok_bind, except_pure_eq, Except.ok.injEq,
                    Prod.mk.injEq] at h
                  obtain ⟨rfl, rfl⟩ := h
                  exact ⟨ids, frames, m, rfl, rfl, hfr, hm, hw⟩

/-- A successful `$ref` entry always records its one fetch call. -/
theorem deref_entry_some (fetch : FetchCall → Except String (List PyVal))
    (docs : List PyVal) (path : String) (proj : PyDict)
    (docs2 : List PyVal) (oc : Option FetchCall)
    (hmem : dmem proj "$ref" = true)
    (h : deref_entry fetch docs path proj = .ok (docs2, oc)) :
    ∃ call, oc = some call := by
  cases hg : dget proj "$ref" with
  | cls t =>
      obtain ⟨ids, frames, m, _, hoc, _⟩ :=
        deref_entry_ok_inv fetch docs path proj t hmem hg docs2 oc h
      exact ⟨_, hoc⟩
  | none =>
      unfold deref_entry at h
      rw [hmem] at h
      simp only [Bool.not_true, Bool.false_eq_true, if_false] at h
      cases hids : collectIds path docs with
      | error e => rw [hids] at h; simp at h
      | ok ids => rw [hids] at h; simp only [except_ok_bind] at h; rw [hg] at h; simp at h
  | bool b =>
      unfold deref_entry at h
      rw [hmem] at h
      simp only [Bool.not_true, Bool.false_eq_true, if_false] at h
      cases hids : collectIds path docs with
      | error e => rw [hids] at h; simp at h
      | ok ids => rw [hids] at h; simp only [except_ok_bind] at h; rw [hg] at h; simp at h
  | int n =>
      unfold deref_entry at h
      rw [hmem] at h
      simp only [Bool.not_true, Bool.false_eq_true, if_false] at h
      cases hids : collectIds path docs with
      | error e => rw [hids] at h; simp at h
      | ok ids => rw [hids] at h; simp only [except_ok_bind] at h; rw [hg] at h; simp at h
  | str s =>
      unfold deref_entry at h
      rw [hmem] at h
      simp only [Bool.not_true, Bool.false_eq_true, if_false] at h
      cases hids : collectIds path docs with
      | error e => rw [hids] at h; simp at h
      | ok ids => rw [hids] at h; simp only [except_ok_bind] at h; rw [hg] at h; simp at h
  | id n =>
      unfold deref_entry at h
      rw [hmem] at h
      simp only [Bool.not_true, Bool.false_eq_true, if_false] at h
      cases hids : collectIds path docs with
      | error e => rw [hids] at h; simp at h
      | ok ids => rw [hids] at h; simp only [except_ok_bind] at h; rw [hg] at h; simp at h
  | list xs =>
      unfold deref_entry at h
      rw [hmem] at h
      simp only [Bool.not_true, Bool.false_eq_true, if_false] at h
      cases hids : collectIds path docs with
      | error e => rw [hids] at h; simp at h
      | ok ids => rw [hids] at h; simp only [except_ok_bind] at h; rw [hg] at h; simp at h
  | dict es =>
      unfold deref_entry at h
      rw [hmem] at h
      simp only [Bool.not_true, Bool.false_eq_true, if_false] at h
      cases hids : collectIds path docs with
      | error e => rw [hids] at h; simp at h
      | ok ids => rw [hids] at h; simp only [except_ok_bind] at h; rw [hg] at h; simp at h
  | frame c d =>
      unfold deref_entry at h
      rw [hmem] at h
      simp only [Bool.not_true, Bool.false_eq_true, if_false] at h
      cases hids : collectIds path docs with
      | error e => rw [hids] at h; simp at h
      | ok ids => rw [hids] at h; simp only [except_ok_bind] at h; rw [hg] at h; simp at h

end MongoFrames
namespace MongoFrames

/-- Inversion of one step of `dereference`. -/
theorem dereference_cons_inv (fetch : FetchCall → Except String (List PyVal))
    (docs : List PyVal) (path : String) (proj : PyDict)
    (rest : List (String × PyDict)) (docs2 : List PyVal) (log : List FetchCall)
    (h : dereference fetch docs ((path, proj) :: rest) = .ok (docs2, log)) :
    ∃ docs1 c log2,
      deref_entry fetch docs path proj = .ok (docs1, c) ∧
      dereference fetch docs1 rest = .ok (docs2, log2) ∧
      log = c.toList ++ log2 := by
  unfold dereference at h
  cases he : deref_entry fetch docs path proj with
  | error e => rw [he] at h; simp at h
  | ok p =>
      obtain ⟨docs1, c⟩ := p
      rw [he] at h
      simp only [except_ok_bind] at h
      cases hd : dereference fetch docs1 rest with
      | error e => rw [hd] at h; simp at h
      | ok q =>
          obtain ⟨d2, log2⟩ := q
          rw [hd] at h
          simp only [except_ok_bind, except_pure_eq, Except.ok.injEq,
            Prod.mk.injEq] at h
          obtain ⟨rfl, rfl⟩ := h
          exact ⟨docs1, c, log2, rfl, hd, rfl⟩

/-- One fetch call is logged per reference-table entry carrying `$ref`. -/
theorem dereference_log_length (refs : List (String × PyDict)) :
    ∀ (fetch : FetchCall → Except String (List PyVal)) (docs docs2 : List PyVal)
      (log : List FetchCall),
    dereference fetch docs refs = .ok (docs2, log) →
    log.length = (refs.filter (fun e => dmem e.2 "$ref")).length := by
  induction refs with
  | nil =>
      intro fetch docs docs2 log h
      unfold dereference at h
      simp only [Except.ok.injEq, Prod.mk.injEq] at h
      obtain ⟨rfl, rfl⟩ := h
      simp
  | cons e rest ih =>
      intro fetch docs docs2 log h
      obtain ⟨p, proj⟩ := e
      obtain ⟨docs1, c, log2, he, hd, rfl⟩ :=
        dereference_cons_inv fetch docs p proj rest docs2 log h
      cases hmem : dmem proj "$ref" with
      | false =>
          rw [deref_entry_skip fetch docs p proj hmem] at he
          simp only [Except.ok.injEq, Prod.mk.injEq] at he
          obtain ⟨rfl, rfl⟩ := he
          simp only [Option.toList_none, List.nil_append, List.filter_cons,
            hmem]
          exact ih fetch docs docs2 log2 hd
      | true =>
          obtain ⟨call, rfl⟩ :=
            deref_entry_some fetch docs p proj docs1 c hmem he
          simp only [Option.toList_some, List.singleton_append,
            List.length_cons, List.filter_cons, hmem]
          rw [ih fetch docs1 docs2 log2 hd]
          simp

end MongoFrames
namespace MongoFrames

/-- A one-entry reference table issues exactly one fetch whose id list is the
deduplicated union of the identifiers found at the path across all
documents. -/
theorem dereference_single_entry (fetch : FetchCall → Except String (List PyVal))
    (docs : List PyVal) (path : String) (proj : PyDict) (t : String)
    (hmem : dmem proj "$ref" = true) (hcls : dget proj "$ref" = .cls t)
    (docs2 : List PyVal) (log : List FetchCall)
    (h : dereference fetch docs [(path, proj)] = .ok (docs2, log)) :
    ∃ ids, collectIds path docs = .ok ids ∧
      log = [⟨t, ids, dpop proj "$ref"⟩] ∧ ids.Nodup ∧
      (∀ x, x ∈ ids ↔ ∃ doc ∈ docs, ∃ v, path_to_value path doc = .ok v ∧
          v.falsy = false ∧ x ∈ idsOfValue v) := by
  obtain ⟨docs1, c, log2, he, hd, rfl⟩ :=
    dereference_cons_inv fetch docs path proj [] docs2 log h
  obtain ⟨ids, frames, m, hids, rfl, hfr, hm, hw⟩ :=
    deref_entry_ok_inv fetch docs path proj t hmem hcls docs1 c he
  have hlog2 : log2 = [] := by
    unfold dereference at hd
    simp only [Except.ok.injEq, Prod.mk.injEq] at hd
    exact hd.2.symm
  subst hlog2
  refine ⟨ids, hids, by simp, ?_, ?_⟩
  · exact collectIdsFrom_nodup docs [] path ids (by simp) hids
  · intro x
    have hmm := collectIdsFrom_mem docs [] path ids x hids
    simpa using hmm

theorem setAddMany_idem_of_subset (base : List PyVal) :
    ∀ ys : List PyVal, (∀ y ∈ ys, y ∈ base) → setAddMany base ys = base := by
  intro ys
  induction ys with
  | nil => intro _; rfl
  | cons y ys ih =>
      intro hsub
      show setAddMany (setAdd base y) ys = base
      rw [setAdd, if_pos (hsub y (by simp))]
      exact ih (fun z hz => hsub z (by simp [hz]))

theorem collectIds_replicate_same (p : String) (d : PyVal) (x : PyVal)
    (hv : path_to_value p d = .ok x) (hfal : x.falsy = false) :
    ∀ n : Nat, 0 < n →
    collectIds p (List.replicate n d) = .ok (setAddMany [] (idsOfValue x)) := by
  have haux : ∀ (m : Nat) (acc : List PyVal),
      collectIdsFrom p (setAddMany acc (idsOfValue x)) (List.replicate m d)
        = .ok (setAddMany acc (idsOfValue x)) := by
    intro m
    induction m with
    | zero => intro acc; simp [collectIdsFrom]
    | succ m ih =>
        intro acc
        simp only [List.replicate_succ, collectIdsFrom, hv, except_ok_bind,
          hfal, Bool.false_eq_true, if_false]
        have hidem : setAddMany (setAddMany acc (idsOfValue x)) (idsOfValue x)
            = setAddMany acc (idsOfValue x) :=
          setAddMany_idem_of_subset _ _
            (fun y hy => (setAddMany_mem _ _ _).mpr (Or.inr hy))
        rw [hidem]
        exact ih acc
  intro n hn
  cases n with
  | zero => cases hn
  | succ m =>
      unfold collectIds
      simp only [List.replicate_succ, collectIdsFrom, hv, except_ok_bind,
        hfal, Bool.false_eq_true, if_false]
      exact haux m []

theorem deref_writeback_replicate (m : List (PyVal × PyVal)) (p : String)
    (d d2 : PyVal) (x : PyVal)
    (hv : path_to_value p d = .ok x) (hfal : x.falsy = false)
    (hset : set_at_keys d (path_to_keys p) (deref_value m x) = .ok d2) :
    ∀ n : Nat, deref_writeback m p (List.replicate n d)
      = .ok (List.replicate n d2) := by
  intro n
  induction n with
  | zero => simp [deref_writeback]
  | succ k ih =>
      simp only [List.replicate_succ, deref_writeback, hv, except_ok_bind,
        hfal, Bool.false_eq_true, if_false, hset, ih]
      simp

end MongoFrames
namespace MongoFrames

theorem idsOfValue_single (x : PyVal) (hnl : ∀ xs, x ≠ .list xs)
    (hnd : ∀ es, x ≠ .dict es) : idsOfValue x = [x] := by
  cases x <;> first
    | rfl
    | exact absurd rfl (hnl _)
    | exact absurd rfl (hnd _)

theorem deref_value_single (m : List (PyVal × PyVal)) (x : PyVal)
    (hnl : ∀ xs, x ≠ .list xs) (hnd : ∀ es, x ≠ .dict es) :
    deref_value m x = (pget m x).getD PyVal.none := by
  cases x <;> first
    | rfl
    | exact absurd rfl (hnl _)
    | exact absurd rfl (hnd _)

/-- N documents all holding the same single identifier at the reference path:
one fetch for the one-element id set, and every document is written back with
the same resolved frame. -/
theorem dereference_replicate_roundtrip
    (fetch : FetchCall → Except String (List PyVal))
    (p : String) (proj : PyDict) (t : String) (d d2 x F : PyVal) (n : Nat)
    (hmem : dmem proj "$ref" = true) (hcls : dget proj "$ref" = .cls t)
    (hv : path_to_value p d = .ok x) (hfal : x.falsy = false)
    (hnl : ∀ xs, x ≠ .list xs) (hnd : ∀ es, x ≠ .dict es)
    (hn : 0 < n)
    (hfetch : fetch ⟨t, [x], dpop proj "$ref"⟩ = .ok [F])
    (hfid : frameId F = .ok x)
    (hset : set_at_keys d (path_to_keys p) F = .ok d2) :
    dereference fetch (List.replicate n d) [(p, proj)]
      = .ok (List.replicate n d2, [⟨t, [x], dpop proj "$ref"⟩]) := by
  have hido : idsOfValue x = [x] := idsOfValue_single x hnl hnd
  have hids : collectIds p (List.replicate n d) = .ok [x] := by
    rw [collectIds_replicate_same p d x hv hfal n hn, hido]
    simp [setAddMany, setAdd]
  have hfbi : framesById [F] = .ok [(x, F)] := by
    unfold framesById framesByIdFrom
    rw [hfid]
    simp [pinsert, framesByIdFrom]
  have hpg : pget [(x, F)] x = some F := by simp [pget]
  have hdv : deref_value [(x, F)] x = F := by
    rw [deref_value_single _ x hnl hnd, hpg]
    rfl
  have hwb : deref_writeback [(x, F)] p (List.replicate n d)
      = .ok (List.replicate n d2) :=
    deref_writeback_replicate _ p d d2 x hv hfal (by rw [hdv]; exact hset) n
  unfold dereference deref_entry
  rw [hmem]
  simp only [Bool.not_true, Bool.false_eq_true, if_false, hids, except_ok_bind]
  rw [hcls]
  dsimp only
  rw [hfetch]
  simp only [except_ok_bind, hfbi, hwb]
  simp [dereference]

/-- C1: for every document list and reference table, a completed
`Frame._dereference` issues exactly one `ref.many` fetch per table entry
carrying a `$ref` directive (none for entries without one); for a single
entry the one fetch is addressed to the directive's target class and its
`$in` filter is the duplicate-free union of all identifiers found at the path
across all documents; and for N copies of a document holding one identifier
at the path, one fetch is issued and every document's value at the path is
replaced by the same resolved frame. -/
theorem dereference_batches_one_fetch_per_path :
    (∀ (fetch : FetchCall → Except String (List PyVal))
        (docs : List PyVal) (refs : List (String × PyDict))
        (docs2 : List PyVal) (log : List FetchCall),
      dereference fetch docs refs = .ok (docs2, log) →
      log.length = (refs.filter (fun e => dmem e.2 "$ref")).length) ∧
    (∀ (fetch : FetchCall → Except String (List PyVal))
        (docs : List PyVal) (path : String) (proj : PyDict) (t : String)
        (docs2 : List PyVal) (log : List FetchCall),
      dmem proj "$ref" = true → dget proj "$ref" = .cls t →
      dereference fetch docs [(path, proj)] = .ok (docs2, log) →
      ∃ ids, collectIds path docs = .ok ids ∧
        log = [⟨t, ids, dpop proj "$ref"⟩] ∧ ids.Nodup ∧
        (∀ x, x ∈ ids ↔ ∃ doc ∈ docs, ∃ v, path_to_value path doc = .ok v ∧
            v.falsy = false ∧ x ∈ idsOfValue v)) ∧
    (∀ (fetch : FetchCall → Except String (List PyVal))
        (p : String) (proj : PyDict) (t : String) (d d2 x F : PyVal) (n : Nat),
      dmem proj "$ref" = true → dget proj "$ref" = .cls t →
      path_to_value p d = .ok x → x.falsy = false →
      (∀ xs, x ≠ .list xs) → (∀ es, x ≠ .dict es) → 0 < n →
      fetch ⟨t, [x], dpop proj "$ref"⟩ = .ok [F] →
      frameId F = .ok x →
      set_at_keys d (path_to_keys p) F = .ok d2 →
      dereference fetch (List.replicate n d) [(p, proj)]
        = .ok (List.replicate n d2, [⟨t, [x], dpop proj "$ref"⟩])) :=
  ⟨fun fetch docs refs docs2 log h =>
      dereference_log_length refs fetch docs docs2 log h,
   fun fetch docs path proj t docs2 log hmem hcls h =>
      dereference_single_entry fetch docs path proj t hmem hcls docs2 log h,
   fun fetch p proj t d d2 x F n hmem hcls hv hfal hnl hnd hn hfetch hfid hset =>
      dereference_replicate_roundtrip fetch p proj t d d2 x F n hmem hcls hv
        hfal hnl hnd hn hfetch hfid hset⟩

/-- Witness for C1: two documents holding identifier 1 at path `r`; the one
fetch targets class `T` with id set `{1}` and both documents receive the same
resolved frame. -/
theorem dereference_batches_one_fetch_per_path_witness :
    dereference (fun _ => .ok [.frame "T" (.dict [("_id", .id 1)])])
        (List.replicate 2 (.dict [("r", .id 1)])) [("r", [("$ref", .cls "T")])]
      = .ok (List.replicate 2
               (.dict [("r", .frame "T" (.dict [("_id", .id 1)]))]),
             [⟨"T", [.id 1], []⟩]) :=
  dereference_batches_one_fetch_per_path.2.2
    (fun _ => .ok [.frame "T" (.dict [("_id", .id 1)])])
    "r" [("$ref", .cls "T")] "T" (.dict [("r", .id 1)])
    (.dict [("r", .frame "T" (.dict [("_id", .id 1)]))])
    (.id 1) (.frame "T" (.dict [("_id", .id 1)])) 2
    (by decide) (by decide) (by decide) (by decide)
    (by intro xs h; cases h) (by intro es h; cases h) (by decide)
    rfl (by decide) (by decide)

end MongoFrames
namespace MongoFrames

theorem deref_writeback_length (docs : List PyVal) :
    ∀ (m : List (PyVal × PyVal)) (path : String) (docs2 : List PyVal),
    deref_writeback m path docs = .ok docs2 → docs2.length = docs.length := by
  induction docs with
  | nil =>
      intro m path docs2 h
      unfold deref_writeback at h
      simp only [Except.ok.injEq] at h
      subst h
      rfl
  | cons d docs ih =>
      intro m path docs2 h
      unfold deref_writeback at h
      cases hv : path_to_value path d with
      | error e => rw [hv] at h; simp at h
      | ok v =>
          rw [hv] at h
          simp only [except_ok_bind] at h
          cases hfal : v.falsy with
          | true =>
              rw [hfal] at h
              simp only [if_true, except_ok_bind] at h
              cases hrec : deref_writeback m path docs with
              | error e => rw [hrec] at h; simp at h
              | ok tl =>
                  rw [hrec] at h
                  simp only [except_ok_bind, except_pure_eq,
                    Except.ok.injEq] at h
                  subst h
                  simp [ih m path tl hrec]
          | false =>
              rw [hfal] at h
              simp only [Bool.false_eq_true, if_false] at h
              cases hs : set_at_keys d (path_to_keys path) (deref_value m v) with
              | error e => rw [hs] at h; simp at h
              | ok d2 =>
                  rw [hs] at h
                  simp only [except_ok_bind] at h
                  cases hrec : deref_writeback m path docs with
                  | error e => rw [hrec] at h; simp at h
                  | ok tl =>
                      rw [hrec] at h
                      simp only [except_ok_bind, except_pure_eq,
                        Except.ok.injEq] at h
                      subst h
                      simp [ih m path tl hrec]

/-- A successful `$ref` entry implies the directive's target is a class. -/
theorem deref_entry_ok_cls (fetch : FetchCall → Except String (List PyVal))
    (docs : List PyVal) (path : String) (proj : PyDict)
    (docs2 : List PyVal) (oc : Option FetchCall)
    (hmem : dmem proj "$ref" = true)
    (h : deref_entry fetch docs path proj = .ok (docs2, oc)) :
    ∃ t, dget proj "$ref" = .cls t := by
  unfold deref_entry at h
  rw [hmem] at h
  simp only [Bool.not_true, Bool.false_eq_true, if_false] at h
  cases hids : collectIds path docs with
  | error e => rw [hids] at h; simp at h
  | ok ids =>
      rw [hids] at h
      simp only [except_ok_bind] at h
      cases hg : dget proj "$ref" <;> rw [hg] at h <;>
        first
          | exact ⟨_, rfl⟩
          | simp at h

/-- C9: a document whose value at the reference path is falsy (absent/`None`,
empty list, empty map, ...) contributes no identifier to the batched fetch
and is never replaced during write-back: it comes out of `_dereference`
exactly as it went in, at the same position. -/
theorem dereference_falsy_leaves_value
    (fetch : FetchCall → Except String (List PyVal))
    (pre post : List PyVal) (d : PyVal) (path : String) (proj : PyDict)
    (v : PyVal) (hv : path_to_value path d = .ok v) (hfal : v.falsy = true) :
    collectIds path (pre ++ d :: post) = collectIds path (pre ++ post) ∧
    (∀ docs2 log,
      dereference fetch (pre ++ d :: post) [(path, proj)] = .ok (docs2, log) →
      ∃ pre2 post2, docs2 = pre2 ++ d :: post2 ∧ pre2.length = pre.length) := by
  constructor
  · unfold collectIds
    rw [collectIdsFrom_append pre (d :: post), collectIdsFrom_append pre post]
    apply congrArg
    funext a2
    simp [collectIdsFrom, hv, hfal]
  · intro docs2 log h
    obtain ⟨docs1, c, log2, he, hd, rfl⟩ :=
      dereference_cons_inv fetch (pre ++ d :: post) path proj [] docs2 log h
    have hdocs2 : docs2 = docs1 := by
      unfold dereference at hd
      simp only [Except.ok.injEq, Prod.mk.injEq] at hd
      exact hd.1.symm
    subst hdocs2
    cases hmem : dmem proj "$ref" with
    | false =>
        rw [deref_entry_skip fetch _ path proj hmem] at he
        simp only [Except.ok.injEq, Prod.mk.injEq] at he
        obtain ⟨h1, _⟩ := he
        exact ⟨pre, post, h1.symm, rfl⟩
    | true =>
        obtain ⟨t, hcls⟩ := deref_entry_ok_cls fetch _ path proj docs2 c hmem he
        obtain ⟨ids, frames, m, _, _, _, _, hw⟩ :=
          deref_entry_ok_inv fetch _ path proj t hmem hcls docs2 c he
        rw [show d :: post = [d] ++ post by rfl, ← List.append_assoc,
            deref_writeback_append] at hw
        cases hwp : deref_writeback m path (pre ++ [d]) with
        | error e => rw [hwp] at hw; simp at hw
        | ok w1 =>
            rw [hwp] at hw
            simp only [except_ok_bind, except_ok_bind_m] at hw
            cases hwq : deref_writeback m path post with
            | error e => rw [hwq] at hw; simp at hw
            | ok w2 =>
                rw [hwq] at hw
                simp only [except_ok_bind, except_ok_bind_m,
                  Except.ok.injEq] at hw
                rw [deref_writeback_append] at hwp
                cases hwa : deref_writeback m path pre with
                | error e => rw [hwa] at hwp; simp at hwp
                | ok wpre =>
                    rw [hwa] at hwp
                    simp only [except_ok_bind, except_ok_bind_m] at hwp
                    have hwd : deref_writeback m path [d] = .ok [d] := by
                      simp [deref_writeback, hv, hfal]
                    rw [hwd] at hwp
                    simp only [except_ok_bind, except_ok_bind_m,
                      Except.ok.injEq] at hwp
                    subst hwp
                    refine ⟨wpre, w2, ?_, deref_writeback_length pre m path wpre hwa⟩
                    rw [← hw]
                    simp

end MongoFrames
namespace MongoFrames

/-- Witness for C9: a document with an empty list at the reference path,
alongside one real reference; the id set ignores it and it survives
unchanged in place. -/
theorem dereference_falsy_leaves_value_witness :
    collectIds "r" [.dict [("r", .id 1)], .dict [("r", .list [])]]
      = collectIds "r" [.dict [("r", .id 1)]] ∧
    ∃ pre2 post2,
      ([PyVal.dict [("r", .frame "T" (.dict [("_id", .id 1)]))],
        PyVal.dict [("r", PyVal.list [])]] : List PyVal)
        = pre2 ++ PyVal.dict [("r", PyVal.list [])] :: post2 ∧
      pre2.length = 1 :=
  have h := dereference_falsy_leaves_value
    (fun _ => .ok [.frame "T" (.dict [("_id", .id 1)])])
    [.dict [("r", .id 1)]] [] (.dict [("r", .list [])]) "r"
    [("$ref", .cls "T")] (.list []) (by decide) (by decide)
  ⟨h.1, by
    have h2 := h.2
      [.dict [("r", .frame "T" (.dict [("_id", .id 1)]))],
       .dict [("r", .list [])]]
      [⟨"T", [.id 1], []⟩] (by decide)
    simpa using h2⟩

end MongoFrames
namespace MongoFrames

/-- C3: dangling references never raise and resolve to absence.  With one
fetched frame (identifier `okid`) and a dangling identifier `dang`, a
single-value slot becomes `None`, a list slot drops the dangling identifier
while keeping the resolved frames of matched identifiers in original order,
and a keyed-map slot maps its key to `None`; the whole pass returns
successfully. -/
theorem dereference_dangling_resolves_to_absence
    (fetch : FetchCall → Except String (List PyVal))
    (p : String) (proj : PyDict) (t : String)
    (dang okid F : PyVal) (key : String)
    (hp : path_to_keys p = [p])
    (hmem : dmem proj "$ref" = true) (hcls : dget proj "$ref" = .cls t)
    (hnl : ∀ xs, dang ≠ .list xs) (hnd : ∀ es, dang ≠ .dict es)
    (hfal : dang.falsy = false)
    (hne : dang ≠ okid)
    (hfid : frameId F = .ok okid)
    (hfetch : fetch ⟨t, [dang, okid], dpop proj "$ref"⟩ = .ok [F]) :
    dereference fetch
        [.dict [(p, dang)],
         .dict [(p, .list [dang, okid])],
         .dict [(p, .dict [(key, dang)])]]
        [(p, proj)]
      = .ok ([.dict [(p, PyVal.none)],
              .dict [(p, .list [F])],
              .dict [(p, .dict [(key, PyVal.none)])]],
             [⟨t, [dang, okid], dpop proj "$ref"⟩]) := by
  have hne2 : ¬(okid = dang) := fun h => hne h.symm
  have hido : idsOfValue dang = [dang] := idsOfValue_single dang hnl hnd
  have hv1 : path_to_value p (.dict [(p, dang)]) = .ok dang := by
    unfold path_to_value
    rw [hp]
    simp [path_walk, pyget, dget, dlookup, dlookupG]
  have hv2 : path_to_value p (.dict [(p, .list [dang, okid])])
      = .ok (.list [dang, okid]) := by
    unfold path_to_value
    rw [hp]
    simp [path_walk, pyget, dget, dlookup, dlookupG]
  have hv3 : path_to_value p (.dict [(p, .dict [(key, dang)])])
      = .ok (.dict [(key, dang)]) := by
    unfold path_to_value
    rw [hp]
    simp [path_walk, pyget, dget, dlookup, dlookupG]
  have hids : collectIds p
      [.dict [(p, dang)], .dict [(p, .list [dang, okid])],
       .dict [(p, .dict [(key, dang)])]] = .ok [dang, okid] := by
    unfold collectIds
    simp only [collectIdsFrom, hv1, hv2, hv3, except_ok_bind, hfal,
      Bool.false_eq_true, if_false]
    simp [PyVal.falsy, idsOfValue, hido, setAddMany, setAdd, hne2]
  have hfbi : framesById [F] = .ok [(okid, F)] := by
    unfold framesById framesByIdFrom
    rw [hfid]
    simp [pinsert, framesByIdFrom]
  have hpgd : pget [(okid, F)] dang = Option.none := by
    simp [pget, hne2]
  have hpgo : pget [(okid, F)] okid = some F := by
    simp [pget]
  have hdv1 : deref_value [(okid, F)] dang = PyVal.none := by
    rw [deref_value_single _ dang hnl hnd, hpgd]
    rfl
  have hdv2 : deref_value [(okid, F)] (.list [dang, okid]) = .list [F] := by
    simp [deref_value, List.filterMap, hpgd, hpgo]
  have hdv3 : deref_value [(okid, F)] (.dict [(key, dang)])
      = .dict [(key, PyVal.none)] := by
    simp [deref_value, hpgd]
  have hs1 : set_at_keys (.dict [(p, dang)]) (path_to_keys p) PyVal.none
      = .ok (.dict [(p, PyVal.none)]) := by
    rw [hp]
    simp [set_at_keys, dinsert, dinsertG]
  have hs2 : set_at_keys (.dict [(p, .list [dang, okid])]) (path_to_keys p)
      (.list [F]) = .ok (.dict [(p, .list [F])]) := by
    rw [hp]
    simp [set_at_keys, dinsert, dinsertG]
  have hs3 : set_at_keys (.dict [(p, .dict [(key, dang)])]) (path_to_keys p)
      (.dict [(key, PyVal.none)])
      = .ok (.dict [(p, .dict [(key, PyVal.none)])]) := by
    rw [hp]
    simp [set_at_keys, dinsert, dinsertG]
  have hwb : deref_writeback [(okid, F)] p
      [.dict [(p, dang)], .dict [(p, .list [dang, okid])],
       .dict [(p, .dict [(key, dang)])]]
      = .ok [.dict [(p, PyVal.none)], .dict [(p, .list [F])],
             .dict [(p, .dict [(key, PyVal.none)])]] := by
    have hfal2 : (PyVal.list [dang, okid]).falsy = false := rfl
    have hfal3 : (PyVal.dict [(key, dang)]).falsy = false := rfl
    simp only [deref_writeback, hv1, hv2, hv3, except_ok_bind, hfal, hfal2,
      hfal3, Bool.false_eq_true, if_false, hdv1, hdv2, hdv3, hs1, hs2, hs3]
    simp
  unfold dereference deref_entry
  rw [hmem]
  simp only [Bool.not_true, Bool.false_eq_true, if_false, hids, except_ok_bind]
  rw [hcls]
  dsimp only
  rw [hfetch]
  simp only [except_ok_bind, hfbi, hwb]
  simp [dereference]

end MongoFrames
namespace MongoFrames

/-- Witness for C3: identifier 2 dangles (only identifier 1 resolves);
single slot → `None`, list slot → `[frame]`, map slot → `{k: None}`. -/
theorem dereference_dangling_resolves_to_absence_witness :
    dereference (fun _ => .ok [.frame "T" (.dict [("_id", .id 1)])])
        [.dict [("r", .id 2)],
         .dict [("r", .list [.id 2, .id 1])],
         .dict [("r", .dict [("k", .id 2)])]]
        [("r", [("$ref", .cls "T")])]
      = .ok ([.dict [("r", PyVal.none)],
              .dict [("r", .list [.frame "T" (.dict [("_id", .id 1)])])],
              .dict [("r", .dict [("k", PyVal.none)])]],
             [⟨"T", [.id 2, .id 1], []⟩]) :=
  dereference_dangling_resolves_to_absence
    (fun _ => .ok [.frame "T" (.dict [("_id", .id 1)])])
    "r" [("$ref", .cls "T")] "T" (.id 2) (.id 1)
    (.frame "T" (.dict [("_id", .id 1)])) "k"
    (by decide) (by decide) (by decide)
    (by intro xs h; cases h) (by intro es h; cases h)
    (by decide) (by decide) (by decide) rfl

end MongoFrames
namespace MongoFrames

theorem path_to_value_single_key (p : String) (hp : path_to_keys p = [p])
    (X : PyVal) : path_to_value p (.dict [(p, X)]) = .ok X := by
  unfold path_to_value
  rw [hp]
  simp [path_walk, pyget, dget, dlookup, dlookupG]

theorem set_at_keys_single_key (p : String) (hp : path_to_keys p = [p])
    (X Y : PyVal) :
    set_at_keys (.dict [(p, X)]) (path_to_keys p) Y = .ok (.dict [(p, Y)]) := by
  rw [hp]
  simp [set_at_keys, dinsert, dinsertG]

theorem wrap_elems_cls (S : String) (xs : List PyVal) :
    wrap_elems (.cls S) xs
      = .ok (xs.filterMap (fun w =>
          if w.isDict then some (.frame S w) else Option.none)) := by
  induction xs with
  | nil => rfl
  | cons w xs ih =>
      cases hw : w.isDict <;>
        simp [wrap_elems, hw, ih, mkSub, List.filterMap_cons]

theorem wrap_pairs_cls_self (S : String) (xs : List PyVal) :
    wrap_pairs (.cls S) (xs.zip xs)
      = .ok (xs.filterMap (fun w =>
          if w.isDict then some (.frame S w) else Option.none)) := by
  induction xs with
  | nil => rfl
  | cons w xs ih =>
      have hz : (w :: xs).zip (w :: xs) = (w, w) :: xs.zip xs := rfl
      rw [hz]
      cases hw : w.isDict
      · simp only [wrap_pairs, hw, Bool.false_eq_true, if_false]
        rw [ih]
        simp [List.filterMap_cons, hw]
      · simp only [wrap_pairs, hw, if_true, mkSub, except_ok_bind]
        rw [ih]
        simp [List.filterMap_cons, hw]

theorem wrap_map_entries_cls (S : String) (mes : PyDict) :
    ∀ rest : List PyVal,
    wrap_map_entries (.cls S) mes (mes.map Prod.snd ++ rest)
      = .ok (mes.map (fun e => (e.1,
          match e.2 with
          | .list xs => PyVal.list (xs.filterMap (fun w =>
              if w.isDict then some (.frame S w) else Option.none))
          | u => PyVal.frame S u)), rest) := by
  induction mes with
  | nil => intro rest; rfl
  | cons e mes ih =>
      intro rest
      obtain ⟨k, u⟩ := e
      cases u <;>
        simp [wrap_map_entries, mkSub, ih, wrap_elems_cls, List.map_cons]

theorem apply_sub_frames_singleton (fuel : Nat)
    (fetch : FetchCall → Except String (List PyVal))
    (docs : List PyVal) (p : String) (proj : PyDict) :
    apply_sub_frames (fuel + 1) fetch docs [(p, proj)]
      = apply_sub_entry fuel fetch docs p proj := by
  simp only [apply_sub_frames]
  cases h : apply_sub_entry fuel fetch docs p proj <;>
    simp [apply_sub_frames]

theorem apply_sub_entry_sub_tag (fuel : Nat)
    (fetch : FetchCall → Except String (List PyVal))
    (docs : List PyVal) (p : String) (S : String) :
    apply_sub_entry (fuel + 1) fetch docs p [("$sub", .cls S)]
      = apply_sub_entry_core fuel fetch docs p (.cls S) false [] := by
  simp only [apply_sub_entry]
  norm_num [dmem, dlookup, dlookupG, dget, dpop, dpopG]

theorem apply_sub_entry_submap_tag (fuel : Nat)
    (fetch : FetchCall → Except String (List PyVal))
    (docs : List PyVal) (p : String) (S : String) :
    apply_sub_entry (fuel + 1) fetch docs p [("$sub.", .cls S)]
      = apply_sub_entry_core fuel fetch docs p (.cls S) true [] := by
  simp only [apply_sub_entry]
  norm_num [dmem, dlookup, dlookupG, dget, dpop, dpopG]
  intro h
  exact absurd h (by decide)

theorem apply_sub_entry_core_no_nested (fuel : Nat)
    (fetch : FetchCall → Except String (List PyVal))
    (docs : List PyVal) (p : String) (sub : PyVal) (em : Bool) :
    apply_sub_entry_core (fuel + 1) fetch docs p sub em []
      = (collect_raw em p docs).bind (fun raw =>
          (wrap_docs sub em p docs raw).map Prod.fst) := by
  simp only [apply_sub_entry_core]
  cases h : collect_raw em p docs with
  | error e => simp [h]
  | ok raw =>
      simp only [h, except_ok_bind, List.isEmpty_nil, if_true, except_ok_bind_m]
      cases hw : wrap_docs sub em p docs raw with
      | error e => simp [hw]
      | ok q => obtain ⟨d2, pend⟩ := q; simp [hw]

end MongoFrames
namespace MongoFrames

/-- C6: embedding resolution dispatches on the shape of the raw value at the
path: an absent value is skipped; a single embedded mapping becomes exactly
one wrapped sub-frame; a list becomes the wrapped sub-frames of its mapping
elements in original order (non-mappings skipped, not fatal); under the
`$sub.` map variant a keyed map of M entries becomes a keyed map of M wrapped
values with keys preserved (lists of mappings wrapped elementwise); any other
present shape raises `TypeError` — the one fatal case. -/
theorem apply_sub_frames_shape_dispatch
    (fuel : Nat) (fetch : FetchCall → Except String (List PyVal))
    (S : String) (p : String) (hp : path_to_keys p = [p]) :
    (apply_sub_frames (fuel + 3) fetch [.dict []] [(p, [("$sub", .cls S)])]
        = .ok [.dict []]) ∧
    (∀ es : PyDict,
      apply_sub_frames (fuel + 3) fetch [.dict [(p, .dict es)]]
          [(p, [("$sub", .cls S)])]
        = .ok [.dict [(p, .frame S (.dict es))]]) ∧
    (∀ xs : List PyVal,
      apply_sub_frames (fuel + 3) fetch [.dict [(p, .list xs)]]
          [(p, [("$sub", .cls S)])]
        = .ok [.dict [(p, .list (xs.filterMap (fun w =>
            if w.isDict then some (.frame S w) else Option.none)))]]) ∧
    (∀ mes : PyDict,
      apply_sub_frames (fuel + 3) fetch [.dict [(p, .dict mes)]]
          [(p, [("$sub.", .cls S)])]
        = .ok [.dict [(p, .dict (mes.map (fun e => (e.1,
            match e.2 with
            | .list xs => PyVal.list (xs.filterMap (fun w =>
                if w.isDict then some (.frame S w) else Option.none))
            | u => PyVal.frame S u))))]]) ∧
    (∀ v : PyVal, v ≠ PyVal.none → (∀ xs, v ≠ .list xs) →
      (∀ es, v ≠ .dict es) →
      apply_sub_frames (fuel + 3) fetch [.dict [(p, v)]]
          [(p, [("$sub", .cls S)])]
        = .error "TypeError") := by
  have hv0 : path_to_value p (.dict []) = .ok PyVal.none := by
    unfold path_to_value
    rw [hp]
    simp [path_walk, pyget, dget, dlookup, dlookupG]
  refine ⟨?_, ?_, ?_, ?_, ?_⟩
  · rw [apply_sub_frames_singleton, apply_sub_entry_sub_tag,
        apply_sub_entry_core_no_nested]
    simp [collect_raw, raw_of_value, hv0, wrap_docs, wrap_one]
  · intro es
    rw [apply_sub_frames_singleton, apply_sub_entry_sub_tag,
        apply_sub_entry_core_no_nested]
    simp [collect_raw, raw_of_value, path_to_value_single_key p hp,
      wrap_docs, wrap_one, mkSub, set_at_keys_single_key p hp]
  · intro xs
    rw [apply_sub_frames_singleton, apply_sub_entry_sub_tag,
        apply_sub_entry_core_no_nested]
    simp [collect_raw, raw_of_value, path_to_value_single_key p hp,
      wrap_docs, wrap_one, wrap_pairs_cls_self,
      set_at_keys_single_key p hp, List.take_length]
  · intro mes
    rw [apply_sub_frames_singleton, apply_sub_entry_submap_tag,
        apply_sub_entry_core_no_nested]
    have hwme := wrap_map_entries_cls S mes []
    rw [List.append_nil] at hwme
    simp [collect_raw, raw_of_value, path_to_value_single_key p hp,
      wrap_docs, wrap_one, hwme, set_at_keys_single_key p hp]
  · intro v hv1 hnl hnd
    rw [apply_sub_frames_singleton, apply_sub_entry_sub_tag,
        apply_sub_entry_core_no_nested]
    have hro : raw_of_value false v = .error "TypeError" := by
      cases v <;> first
        | rfl
        | exact absurd rfl hv1
        | exact absurd rfl (hnl _)
        | exact absurd rfl (hnd _)
    simp [collect_raw, path_to_value_single_key p hp, hro]

end MongoFrames
namespace MongoFrames

/-- Witness for C6: a list with one mapping and one scalar wraps to the one
sub-frame; a scalar at the path raises `TypeError`. -/
theorem apply_sub_frames_shape_dispatch_witness :
    apply_sub_frames 3 (fun _ => .error "x")
        [.dict [("e", .list [.dict [("a", .int 1)], .int 9])]]
        [("e", [("$sub", .cls "S")])]
      = .ok [.dict [("e", .list [.frame "S" (.dict [("a", .int 1)])])]] ∧
    apply_sub_frames 3 (fun _ => .error "x")
        [.dict [("e", .int 3)]] [("e", [("$sub", .cls "S")])]
      = .error "TypeError" :=
  ⟨by
    have h := (apply_sub_frames_shape_dispatch 0 (fun _ => .error "x") "S" "e"
        (by decide)).2.2.1 [.dict [("a", .int 1)], .int 9]
    simpa using h,
   (apply_sub_frames_shape_dispatch 0 (fun _ => .error "x") "S" "e"
        (by decide)).2.2.2.2 (.int 3) (by intro h; cases h)
        (by intro xs h; cases h) (by intro es h; cases h)⟩

end MongoFrames
namespace MongoFrames

/-- C2: one top-level query whose projection nests an embedding directive
inside a reference directive resolves both levels.  The single fetch against
the referenced collection `T` (whose `many` is itself the modelled
pipeline over its database) returns frames whose embedded field is already a
typed sub-frame; the top-level document's reference slot holds the typed `T`
frame and that frame's embedded slot holds the typed `S` sub-frame — no raw
mapping remains at either resolved level — and the log shows exactly one
batched fetch, carrying the nested projection. -/
theorem many_pipeline_nested_resolution
    (fuel2 : Nat) (tfields fields : List String)
    (i : PyVal) (embEs : PyDict) (topId : PyVal)
    (hfal : i.falsy = false)
    (hnl : ∀ xs, i ≠ .list xs) (hnd : ∀ es, i ≠ .dict es) :
    many_pipeline (fuel2 + 3)
        (target_many (fuel2 + 3) "T" tfields
          [.dict [("_id", i), ("e", .dict embEs)]])
        "Top" fields
        [("r", .dict [("$ref", .cls "T"), ("e", .dict [("$sub", .cls "S")])])]
        [.dict [("_id", topId), ("r", i)]]
      = .ok ([.frame "Top" (.dict [("_id", topId),
                ("r", .frame "T" (.dict [("_id", i),
                  ("e", .frame "S" (.dict embEs))]))])],
             [⟨"T", [i], [("e", .dict [("$sub", .cls "S")])]⟩]) := by
  have hflat_top : flatten_projection fields
      [("r", .dict [("$ref", .cls "T"), ("e", .dict [("$sub", .cls "S")])])]
      = ⟨allFieldsProjection fields,
         [("r", [("$ref", .cls "T"), ("e", .dict [("$sub", .cls "S")])])],
         []⟩ := by
    rw [flatten_only_directives fields _ (by decide)
        (by
          intro e he
          simp only [List.mem_singleton] at he
          subst he
          exact ⟨_, rfl, by decide, by decide⟩)]
    rfl
  have hflat_inner : flatten_projection tfields
      [("e", .dict [("$sub", .cls "S")])]
      = ⟨allFieldsProjection tfields, [],
         [("e", [("$sub", .cls "S")])]⟩ := by
    rw [flatten_only_directives tfields _ (by decide)
        (by
          intro e he
          simp only [List.mem_singleton] at he
          subst he
          exact ⟨_, rfl, by decide, by decide⟩)]
    rfl
  have hfind : target_find [.dict [("_id", i), ("e", .dict embEs)]] [i]
      = [.dict [("_id", i), ("e", .dict embEs)]] := by
    simp [target_find, dget, dlookup, dlookupG]
  have hpk_e : path_to_keys "e" = ["e"] := by decide
  have hv_e : path_to_value "e" (.dict [("_id", i), ("e", .dict embEs)])
      = .ok (.dict embEs) := by
    unfold path_to_value
    rw [hpk_e]
    simp [path_walk, pyget, dget, dlookup, dlookupG]
  have hset_e : set_at_keys (.dict [("_id", i), ("e", .dict embEs)])
      (path_to_keys "e") (.frame "S" (.dict embEs))
      = .ok (.dict [("_id", i), ("e", .frame "S" (.dict embEs))]) := by
    rw [hpk_e]
    simp [set_at_keys, dinsert, dinsertG]
  have hfetch : target_many (fuel2 + 3) "T" tfields
      [.dict [("_id", i), ("e", .dict embEs)]]
      ⟨"T", [i], [("e", .dict [("$sub", .cls "S")])]⟩
      = .ok [.frame "T" (.dict [("_id", i),
          ("e", .frame "S" (.dict embEs))])] := by
    unfold target_many
    dsimp only
    rw [hfind]
    unfold many_pipeline
    rw [hflat_inner]
    dsimp only
    simp only [List.isEmpty_nil, List.isEmpty_cons, Bool.false_eq_true,
      if_false, if_true, eq_self_iff_true, except_ok_bind, except_pure_eq]
    rw [show fuel2 + 3 = (fuel2 + 2) + 1 from rfl, apply_sub_frames_singleton,
        show fuel2 + 2 = (fuel2 + 1) + 1 from rfl, apply_sub_entry_sub_tag,
        apply_sub_entry_core_no_nested]
    simp [collect_raw, raw_of_value, hv_e, wrap_docs, wrap_one, mkSub, hset_e]
  have hpk_r : path_to_keys "r" = ["r"] := by decide
  have hv_r : path_to_value "r" (.dict [("_id", topId), ("r", i)])
      = .ok i := by
    unfold path_to_value
    rw [hpk_r]
    simp [path_walk, pyget, dget, dlookup, dlookupG]
  have hset_r : set_at_keys (.dict [("_id", topId), ("r", i)])
      (path_to_keys "r")
      (.frame "T" (.dict [("_id", i), ("e", .frame "S" (.dict embEs))]))
      = .ok (.dict [("_id", topId),
          ("r", .frame "T" (.dict [("_id", i),
            ("e", .frame "S" (.dict embEs))]))]) := by
    rw [hpk_r]
    simp [set_at_keys, dinsert, dinsertG]
  have hfid : frameId (.frame "T" (.dict [("_id", i),
      ("e", .frame "S" (.dict embEs))])) = .ok i := by
    simp [frameId, dget, dlookup, dlookupG]
  have hder := dereference_replicate_roundtrip
    (target_many (fuel2 + 3) "T" tfields
      [.dict [("_id", i), ("e", .dict embEs)]])
    "r" [("$ref", .cls "T"), ("e", .dict [("$sub", .cls "S")])] "T"
    (.dict [("_id", topId), ("r", i)])
    (.dict [("_id", topId),
      ("r", .frame "T" (.dict [("_id", i), ("e", .frame "S" (.dict embEs))]))])
    i (.frame "T" (.dict [("_id", i), ("e", .frame "S" (.dict embEs))]))
    1 (by decide) (by decide) hv_r hfal hnl hnd (by decide)
    (by
      have hdp : dpop [("$ref", PyVal.cls "T"),
          ("e", PyVal.dict [("$sub", PyVal.cls "S")])] "$ref"
          = [("e", PyVal.dict [("$sub", PyVal.cls "S")])] := by decide
      rw [hdp]
      exact hfetch)
    hfid hset_r
  simp only [List.replicate_succ, List.replicate_zero] at hder
  unfold many_pipeline
  rw [hflat_top]
  dsimp only
  simp only [List.isEmpty_nil, List.isEmpty_cons, Bool.false_eq_true,
    if_false, if_true, eq_self_iff_true, except_ok_bind, except_pure_eq]
  rw [hder]
  have hdp2 : dpop [("$ref", PyVal.cls "T"),
      ("e", PyVal.dict [("$sub", PyVal.cls "S")])] "$ref"
      = [("e", PyVal.dict [("$sub", PyVal.cls "S")])] := by decide
  simp [hdp2]

end MongoFrames
namespace MongoFrames

/-- Witness for C2 at concrete data: identifier 7, embedded payload
`{'a': 5}`; the one logged fetch carries the nested projection and the
result is fully typed at both levels. -/
theorem many_pipeline_nested_resolution_witness :
    many_pipeline 3
        (target_many 3 "T" ["_id", "e"]
          [.dict [("_id", .id 7), ("e", .dict [("a", .int 5)])]])
        "Top" ["_id", "r"]
        [("r", .dict [("$ref", .cls "T"), ("e", .dict [("$sub", .cls "S")])])]
        [.dict [("_id", .id 9), ("r", .id 7)]]
      = .ok ([.frame "Top" (.dict [("_id", .id 9),
                ("r", .frame "T" (.dict [("_id", .id 7),
                  ("e", .frame "S" (.dict [("a", .int 5)]))]))])],
             [⟨"T", [.id 7], [("e", .dict [("$sub", .cls "S")])]⟩]) :=
  many_pipeline_nested_resolution 0 ["_id", "e"] ["_id", "r"]
    (.id 7) [("a", .int 5)] (.id 9) (by decide)
    (by intro xs h; cases h) (by intro es h; cases h)

end MongoFrames
namespace MongoFrames

/-! ### Heap model for C8: the caller's projection is never mutated

The compile and resolve passes mutate projection dictionaries in place
(`pop` of the directive tags).  To state that the *caller's* object is
untouched we need object identity, so this section shadows the pipeline's
reads, `deepcopy` allocations and `pop` mutations on an explicit heap of
dictionary objects.  Values inside a dictionary are immediate (`prim`) or
pointers to nested dictionary objects (`addr`); `deepcopy` allocates fresh
addresses for every nested dictionary (lines 639 and 785), and every `pop`
(lines 517-519 and 593) targets a dictionary reached from such a copy.  The
storage fetch itself builds only documents and frames and never writes to a
projection dictionary, so it has no heap effect here; the inner `ref.many`
call's own compile/resolve pass on the popped copy is modelled by the
recursive `pipeline_h`. -/

abbrev Addr := Nat

inductive HVal : Type where
  | prim (v : PyVal)
  | addr (a : Addr)
  deriving DecidableEq

abbrev HDict := List (String × HVal)

abbrev Heap := List (Addr × HDict)

def hlookup : Heap → Addr → Option HDict
  | [], _ => Option.none
  | (a2, d) :: rest, a => if a2 = a then some d else hlookup rest a

/-- In-place mutation of the dictionary object at `a` (no-op if absent). -/
def hupdate : Heap → Addr → HDict → Heap
  | [], _, _ => []
  | (a2, d2) :: rest, a, d =>
      if a2 = a then (a, d) :: rest else (a2, d2) :: hupdate rest a d

def hmemH (d : HDict) (k : String) : Bool := (dlookupG d k).isSome

/-- Allocation counter discipline: every allocated address is below `next`. -/
def heapWF (h : Heap) (next : Nat) : Prop := ∀ e ∈ h, e.1 < next

mutual

/-- `copy.deepcopy` on a dictionary object: fresh addresses for the object
and every nested dictionary.  (Python's deepcopy also preserves internal
sharing via its memo dictionary; the copies are never compared for identity
here, so tree copying is an equivalent model for this property.) -/
def deepcopyAddr (fuel : Nat) (st : Heap × Nat) (a : Addr) :
    Option ((Heap × Nat) × Addr) :=
  match fuel with
  | 0 => Option.none
  | fuel + 1 => do
      let d ← hlookup st.1 a
      let (st2, d2) ← deepcopyDict fuel st d
      some ((st2.1 ++ [(st2.2, d2)], st2.2 + 1), st2.2)
termination_by (fuel, 2, 0)

def deepcopyDict (fuel : Nat) (st : Heap × Nat) :
    HDict → Option ((Heap × Nat) × HDict)
  | [] => some (st, [])
  | (k, hv) :: rest => do
      let (st2, hv2) ← deepcopyVal fuel st hv
      let (st3, rest2) ← deepcopyDict fuel st2 rest
      some (st3, (k, hv2) :: rest2)
termination_by d => (fuel, 1, d.length)

def deepcopyVal : Nat → (Heap × Nat) → HVal → Option ((Heap × Nat) × HVal)
  | _, st, .prim v => some (st, .prim v)
  | 0, _, .addr _ => Option.none
  | fuel + 1, st, .addr a => do
      let (st2, a2) ← deepcopyAddr fuel st a
      some (st2, .addr a2)
termination_by fuel _ _ => (fuel, 0, 0)

end

/-- One entry of the table-extraction walk: a dictionary-object value whose
object satisfies `cond` is recorded with its address. -/
def extractStep (cond : HDict → Bool) (h : Heap) :
    List (String × Addr) → (String × HVal) → List (String × Addr)
  | acc, (k, .addr b) =>
      (match hlookup h b with
       | some db => if cond db then acc ++ [(k, b)] else acc
       | Option.none => acc)
  | acc, (_, .prim _) => acc

/-- Table extraction from a (copied) projection dictionary: entries whose
value is a dictionary object satisfying `cond`, as addresses of those
objects. -/
def extractTaggedH (cond : HDict → Bool) (h : Heap) (d : HDict) :
    List (String × Addr) :=
  d.foldl (extractStep cond h) []

/-- The reference table: dictionary-object entries containing `$ref`
(lines 653-655 / 790-792). -/
def extractRefsH (h : Heap) (d : HDict) : List (String × Addr) :=
  extractTaggedH (fun db => hmemH db "$ref") h d

/-- The embedding table: dictionary-object entries containing `$sub`/`$sub.`
and no `$ref` (lines 656-658 / 793-794). -/
def extractSubsH (h : Heap) (d : HDict) : List (String × Addr) :=
  extractTaggedH
    (fun db => !(hmemH db "$ref") && (hmemH db "$sub" || hmemH db "$sub."))
    h d

mutual

/-- Heap shadow of `Frame._dereference` (lines 570-597): pop `$ref` from each
table dictionary, then run the inner `ref.many` compile/resolve pass on that
popped object. -/
def deref_h : Nat → (Heap × Nat) →
    List (String × Addr) → Option (Heap × Nat)
  | _, st, [] => some st
  | 0, _, _ :: _ => Option.none
  | fuel + 1, st, (_, b) :: rest =>
      match hlookup st.1 b with
      | some db =>
          if hmemH db "$ref" then do
            let st2 := (hupdate st.1 b (dpopG db "$ref"), st.2)
            let st3 ← pipeline_h fuel st2 b
            deref_h fuel st3 rest
          else deref_h (fuel + 1) st rest
      | Option.none => Option.none
termination_by fuel _ l => (fuel, 0, l.length)

/-- Heap shadow of `Frame._apply_sub_frames` (lines 511-563): pop the
`$sub`/`$sub.` tag from each table dictionary and, when the remainder is
non-empty, run `sub._apply_projection` on it (line 562). -/
def apply_subs_h : Nat → (Heap × Nat) →
    List (String × Addr) → Option (Heap × Nat)
  | _, st, [] => some st
  | 0, _, _ :: _ => Option.none
  | fuel + 1, st, (_, b) :: rest =>
      match hlookup st.1 b with
      | some db =>
          if hmemH db "$sub" then do
            let db2 := dpopG db "$sub"
            let st2 := (hupdate st.1 b db2, st.2)
            let st3 ← if db2.isEmpty then some st2 else pipeline_h fuel st2 b
            apply_subs_h fuel st3 rest
          else if hmemH db "$sub." then do
            let db2 := dpopG db "$sub."
            let st2 := (hupdate st.1 b db2, st.2)
            let st3 ← if db2.isEmpty then some st2 else pipeline_h fuel st2 b
            apply_subs_h fuel st3 rest
          else apply_subs_h (fuel + 1) st rest
      | Option.none => Option.none
termination_by fuel _ l => (fuel, 0, l.length)

/-- Heap shadow of one query call's compile + resolve passes
(`_flatten_projection` then `_dereference` then `_apply_sub_frames`), and
equally of `SubFrame._apply_projection` (lines 779-802), whose heap effects
coincide: deepcopy the supplied projection object, extract the tables from
the copy, pop and recurse.  Only the copy's addresses are ever mutated. -/
def pipeline_h : Nat → (Heap × Nat) → Addr → Option (Heap × Nat)
  | 0, _, _ => Option.none
  | fuel + 1, st, projAddr => do
      let (st2, a2) ← deepcopyAddr fuel st projAddr
      let d ← hlookup st2.1 a2
      let refs := extractRefsH st2.1 d
      let subs := extractSubsH st2.1 d
      let st3 ← if refs.isEmpty then some st2 else deref_h fuel st2 refs
      if subs.isEmpty then some st3 else apply_subs_h fuel st3 subs
termination_by fuel _ _ => (fuel, 1, 0)

end

end MongoFrames
namespace MongoFrames

theorem hlookup_hupdate_ne (h : Heap) (b : Addr) (d : HDict) :
    ∀ a, a ≠ b → hlookup (hupdate h b d) a = hlookup h a := by
  induction h with
  | nil => intro a _; rfl
  | cons e rest ih =>
      intro a hab
      obtain ⟨a2, d2⟩ := e
      by_cases h2 : a2 = b
      · subst h2
        simp only [hupdate, if_pos rfl, hlookup]
        rw [if_neg (Ne.symm hab), if_neg]
        intro hc
        exact hab hc.symm
      · simp only [hupdate, if_neg h2, hlookup]
        split
        · rfl
        · exact ih a hab

theorem hupdate_keys (h : Heap) (b : Addr) (d : HDict) :
    (hupdate h b d).map Prod.fst = h.map Prod.fst := by
  induction h with
  | nil => rfl
  | cons e rest ih =>
      obtain ⟨a2, d2⟩ := e
      by_cases h2 : a2 = b
      · subst h2
        simp [hupdate]
      · simp [hupdate, h2, ih]

theorem heapWF_iff_keys (h : Heap) (next : Nat) :
    heapWF h next ↔ ∀ k ∈ h.map Prod.fst, k < next := by
  unfold heapWF
  constructor
  · intro hw k hk
    obtain ⟨e, he, rfl⟩ := List.mem_map.mp hk
    exact hw e he
  · intro hw e he
    exact hw e.1 (List.mem_map.mpr ⟨e, he, rfl⟩)

theorem heapWF_hupdate (h : Heap) (next : Nat) (b : Addr) (d : HDict)
    (hwf : heapWF h next) : heapWF (hupdate h b d) next := by
  rw [heapWF_iff_keys, hupdate_keys]
  exact (heapWF_iff_keys h next).mp hwf

theorem heapWF_mono (h : Heap) (n1 n2 : Nat) (hle : n1 ≤ n2)
    (hwf : heapWF h n1) : heapWF h n2 :=
  fun e he => lt_of_lt_of_le (hwf e he) hle

theorem hlookup_append_lt (h : Heap) (k : Addr) (d : HDict) (b : Addr)
    (hne : b ≠ k) : hlookup (h ++ [(k, d)]) b = hlookup h b := by
  induction h with
  | nil => simp [hlookup, Ne.symm hne]
  | cons e rest ih =>
      obtain ⟨a2, d2⟩ := e
      simp only [List.cons_append, hlookup]
      split
      · rfl
      · exact ih

theorem hlookup_append_self (h : Heap) (k : Addr) (d : HDict)
    (hfresh : ∀ e ∈ h, e.1 ≠ k) : hlookup (h ++ [(k, d)]) k = some d := by
  induction h with
  | nil => simp [hlookup]
  | cons e rest ih =>
      obtain ⟨a2, d2⟩ := e
      simp only [List.cons_append, hlookup]
      rw [if_neg (hfresh (a2, d2) (by simp))]
      exact ih (fun e2 he2 => hfresh e2 (by simp [he2]))

/-- Address range constraint for values stored in a copied dictionary. -/
def hvalFresh (lo hi : Nat) : HVal → Prop
  | .addr a => lo ≤ a ∧ a < hi
  | .prim _ => True

theorem hvalFresh_mono {lo hi lo2 hi2 : Nat} (hv : HVal)
    (h : hvalFresh lo hi hv) (hlo : lo2 ≤ lo) (hhi : hi ≤ hi2) :
    hvalFresh lo2 hi2 hv := by
  cases hv with
  | prim v => trivial
  | addr a => exact ⟨le_trans hlo h.1, lt_of_lt_of_le h.2 hhi⟩

mutual

/-- `deepcopy` only appends fresh objects: the counter grows, well-formedness
is kept, every pre-existing address reads as before, the returned address is
fresh, and the copied object's addresses are all fresh. -/
theorem deepcopyAddr_spec : ∀ (fuel : Nat) (h : Heap) (next : Nat) (a : Addr)
    (h2 : Heap) (next2 : Nat) (a2 : Addr),
    deepcopyAddr fuel (h, next) a = some ((h2, next2), a2) →
    heapWF h next →
    next ≤ next2 ∧ heapWF h2 next2 ∧
    (∀ b, b < next → hlookup h2 b = hlookup h b) ∧
    (next ≤ a2 ∧ a2 < next2) ∧
    (∃ dc, hlookup h2 a2 = some dc ∧ ∀ e ∈ dc, hvalFresh next next2 e.2)
  | 0, h, next, a, h2, next2, a2 => by
      intro hrun
      simp [deepcopyAddr] at hrun
  | fuel + 1, h, next, a, h2, next2, a2 => by
      intro hrun hwf
      unfold deepcopyAddr at hrun
      cases hl : hlookup h a with
      | none => rw [hl] at hrun; simp at hrun
      | some d =>
          rw [hl] at hrun
          simp only [option_some_bind] at hrun
          cases hdc : deepcopyDict fuel (h, next) d with
          | none => rw [hdc] at hrun; simp at hrun
          | some q =>
              obtain ⟨⟨h3, next3⟩, d2⟩ := q
              rw [hdc] at hrun
              simp only [option_some_bind, Option.some.injEq] at hrun
              obtain ⟨h1, h2eq⟩ := Prod.mk.injEq .. ▸ hrun
              obtain ⟨hh2, hn2⟩ := Prod.mk.injEq .. ▸ h1
              subst hh2 hn2 h2eq
              obtain ⟨hle, hwf3, hpres, hfr⟩ :=
                deepcopyDict_spec fuel h next d h3 next3 d2 hdc hwf
              refine ⟨le_trans hle (Nat.le_succ _), ?_, ?_, ⟨hle, Nat.lt_succ_self _⟩, ?_⟩
              · intro e he
                rcases List.mem_append.mp he with he2 | he2
                · exact lt_trans (hwf3 e he2) (Nat.lt_succ_self _)
                · simp at he2
                  subst he2
                  exact Nat.lt_succ_self _
              · intro b hb
                rw [hlookup_append_lt _ _ _ _
                    (Nat.ne_of_lt (lt_of_lt_of_le hb hle))]
                exact hpres b hb
              · refine ⟨d2, ?_, ?_⟩
                · exact hlookup_append_self h3 next3 d2
                    (fun e he => Nat.ne_of_lt (hwf3 e he))
                · intro e he
                  exact hvalFresh_mono _ (hfr e he) (le_refl _) (Nat.le_succ _)

theorem deepcopyDict_spec : ∀ (fuel : Nat) (h : Heap) (next : Nat) (d : HDict)
    (h2 : Heap) (next2 : Nat) (d2 : HDict),
    deepcopyDict fuel (h, next) d = some ((h2, next2), d2) →
    heapWF h next →
    next ≤ next2 ∧ heapWF h2 next2 ∧
    (∀ b, b < next → hlookup h2 b = hlookup h b) ∧
    (∀ e ∈ d2, hvalFresh next next2 e.2)
  | fuel, h, next, [], h2, next2, d2 => by
      intro hrun hwf
      simp only [deepcopyDict, Option.some.injEq] at hrun
      obtain ⟨h1, hd2⟩ := Prod.mk.injEq .. ▸ hrun
      obtain ⟨hh2, hn2⟩ := Prod.mk.injEq .. ▸ h1
      subst hh2 hn2 hd2
      exact ⟨le_refl _, hwf, fun b _ => rfl, by simp⟩
  | fuel, h, next, (k, hv) :: rest, h2, next2, d2 => by
      intro hrun hwf
      unfold deepcopyDict at hrun
      cases hv1 : deepcopyVal fuel (h, next) hv with
      | none => rw [hv1] at hrun; simp at hrun
      | some q1 =>
          obtain ⟨⟨h3, next3⟩, hv2⟩ := q1
          rw [hv1] at hrun
          simp only [option_some_bind] at hrun
          cases hr : deepcopyDict fuel (h3, next3) rest with
          | none => rw [hr] at hrun; simp at hrun
          | some q2 =>
              obtain ⟨⟨h4, next4⟩, rest2⟩ := q2
              rw [hr] at hrun
              simp only [option_some_bind, Option.some.injEq] at hrun
              obtain ⟨h1, hd2⟩ := Prod.mk.injEq .. ▸ hrun
              obtain ⟨hh2, hn2⟩ := Prod.mk.injEq .. ▸ h1
              subst hh2 hn2 hd2
              obtain ⟨hle1, hwf3, hpres1, hfr1⟩ :=
                deepcopyVal_spec fuel h next hv h3 next3 hv2 hv1 hwf
              obtain ⟨hle2, hwf4, hpres2, hfr2⟩ :=
                deepcopyDict_spec fuel h3 next3 rest h4 next4 rest2 hr hwf3
              refine ⟨le_trans hle1 hle2, hwf4, ?_, ?_⟩
              · intro b hb
                rw [hpres2 b (lt_of_lt_of_le hb hle1), hpres1 b hb]
              · intro e he
                rcases List.mem_cons.mp he with rfl | he2
                · exact hvalFresh_mono _ hfr1 (le_refl _) hle2
                · exact hvalFresh_mono _ (hfr2 e he2) hle1 (le_refl _)

theorem deepcopyVal_spec : ∀ (fuel : Nat) (h : Heap) (next : Nat) (hv : HVal)
    (h2 : Heap) (next2 : Nat) (hv2 : HVal),
    deepcopyVal fuel (h, next) hv = some ((h2, next2), hv2) →
    heapWF h next →
    next ≤ next2 ∧ heapWF h2 next2 ∧
    (∀ b, b < next → hlookup h2 b = hlookup h b) ∧
    hvalFresh next next2 hv2
  | fuel, h, next, .prim v, h2, next2, hv2 => by
      intro hrun hwf
      simp only [deepcopyVal, Option.some.injEq] at hrun
      obtain ⟨h1, hd2⟩ := Prod.mk.injEq .. ▸ hrun
      obtain ⟨hh2, hn2⟩ := Prod.mk.injEq .. ▸ h1
      subst hh2 hn2 hd2
      exact ⟨le_refl _, hwf, fun b _ => rfl, trivial⟩
  | 0, h, next, .addr a, h2, next2, hv2 => by
      intro hrun
      simp [deepcopyVal] at hrun
  | fuel + 1, h, next, .addr a, h2, next2, hv2 => by
      intro hrun hwf
      unfold deepcopyVal at hrun
      cases ha : deepcopyAddr fuel (h, next) a with
      | none => rw [ha] at hrun; simp at hrun
      | some q =>
          obtain ⟨⟨h3, next3⟩, a2⟩ := q
          rw [ha] at hrun
          simp only [option_some_bind, Option.some.injEq] at hrun
          obtain ⟨h1, hd2⟩ := Prod.mk.injEq .. ▸ hrun
          obtain ⟨hh2, hn2⟩ := Prod.mk.injEq .. ▸ h1
          subst hh2 hn2 hd2
          obtain ⟨hle, hwf3, hpres, hrange, _⟩ :=
            deepcopyAddr_spec fuel h next a h3 next3 a2 ha hwf
          exact ⟨hle, hwf3, hpres, hrange⟩

end

end MongoFrames
namespace MongoFrames

theorem extractStep_ge (cond : HDict → Bool) (h : Heap) (lo hi : Nat)
    (acc : List (String × Addr)) (e : String × HVal)
    (hacc : ∀ e2 ∈ acc, lo ≤ e2.2) (he : hvalFresh lo hi e.2) :
    ∀ e2 ∈ extractStep cond h acc e, lo ≤ e2.2 := by
  obtain ⟨k, v⟩ := e
  cases v with
  | prim v => exact fun e2 he2 => hacc e2 he2
  | addr b =>
      show ∀ e2 ∈ (match hlookup h b with
        | some db => if cond db then acc ++ [(k, b)] else acc
        | Option.none => acc), lo ≤ e2.2
      cases hl : hlookup h b with
      | none => exact fun e2 he2 => hacc e2 he2
      | some db =>
          show ∀ e2 ∈ (if cond db then acc ++ [(k, b)] else acc), lo ≤ e2.2
          by_cases hc : cond db = true
          · rw [if_pos hc]
            intro e2 he2
            rcases List.mem_append.mp he2 with h3 | h3
            · exact hacc e2 h3
            · simp at h3
              subst h3
              exact he.1
          · rw [if_neg hc]
            exact hacc

theorem extract_fold_ge (cond : HDict → Bool) (h : Heap) (lo hi : Nat) :
    ∀ (d : HDict) (acc : List (String × Addr)),
    (∀ e ∈ d, hvalFresh lo hi e.2) →
    (∀ e2 ∈ acc, lo ≤ e2.2) →
    ∀ e2 ∈ d.foldl (extractStep cond h) acc, lo ≤ e2.2 := by
  intro d
  induction d with
  | nil => intro acc _ hacc e2 he2; exact hacc e2 he2
  | cons e d ih =>
      intro acc hd hacc
      rw [List.foldl_cons]
      exact ih _ (fun e3 he3 => hd e3 (by simp [he3]))
        (extractStep_ge cond h lo hi acc e hacc (hd e (by simp)))

theorem extractTaggedH_ge (cond : HDict → Bool) (h : Heap) (d : HDict)
    (lo hi : Nat) (hd : ∀ e ∈ d, hvalFresh lo hi e.2) :
    ∀ e2 ∈ extractTaggedH cond h d, lo ≤ e2.2 :=
  extract_fold_ge cond h lo hi d [] hd (by simp)

/-- The heap relation every pass preserves: the counter grows,
well-formedness is kept, and every address below `base` reads as before. -/
def heapEvolve (base : Nat) (st st2 : Heap × Nat) : Prop :=
  st.2 ≤ st2.2 ∧ heapWF st2.1 st2.2 ∧
  ∀ b, b < base → hlookup st2.1 b = hlookup st.1 b

theorem heapEvolve_refl (base : Nat) (st : Heap × Nat)
    (hwf : heapWF st.1 st.2) : heapEvolve base st st :=
  ⟨le_refl _, hwf, fun _ _ => rfl⟩

theorem heapEvolve_trans (base : Nat) (st1 st2 st3 : Heap × Nat)
    (h12 : heapEvolve base st1 st2) (h23 : heapEvolve base st2 st3) :
    heapEvolve base st1 st3 :=
  ⟨le_trans h12.1 h23.1, h23.2.1,
   fun b hb => (h23.2.2 b hb).trans (h12.2.2 b hb)⟩

theorem heapEvolve_hupdate (base : Nat) (h : Heap) (n : Nat) (b : Addr)
    (d : HDict) (hwf : heapWF h n) (hb : base ≤ b) :
    heapEvolve base (h, n) (hupdate h b d, n) :=
  ⟨le_refl _, heapWF_hupdate h n b d hwf,
   fun b2 hb2 =>
     hlookup_hupdate_ne h b d b2 (Nat.ne_of_lt (lt_of_lt_of_le hb2 hb))⟩

end MongoFrames
namespace MongoFrames

mutual

/-- The dereference shadow only mutates table addresses (all ≥ `base`) and
fresh copies: every address below `base` reads as before. -/
theorem deref_h_spec : ∀ (fuel : Nat) (st : Heap × Nat)
    (tbl : List (String × Addr)) (st2 : Heap × Nat) (base : Nat),
    deref_h fuel st tbl = some st2 →
    heapWF st.1 st.2 → base ≤ st.2 → (∀ e ∈ tbl, base ≤ e.2) →
    heapEvolve base st st2
  | fuel, st, [], st2, base => by
      intro hrun hwf _ _
      simp only [deref_h, Option.some.injEq] at hrun
      subst hrun
      exact heapEvolve_refl base st hwf
  | 0, st, e :: rest, st2, base => by
      intro hrun
      simp [deref_h] at hrun
  | fuel + 1, st, (s, b) :: rest, st2, base => by
      intro hrun hwf hb htbl
      unfold deref_h at hrun
      cases hl : hlookup st.1 b with
      | none => rw [hl] at hrun; simp at hrun
      | some db =>
          rw [hl] at hrun
          dsimp only at hrun
          by_cases hm : hmemH db "$ref" = true
          · rw [if_pos hm] at hrun
            cases hp : pipeline_h fuel (hupdate st.1 b (dpopG db "$ref"), st.2) b with
            | none => rw [hp] at hrun; simp at hrun
            | some st3 =>
                rw [hp] at hrun
                simp only [option_some_bind] at hrun
                have hbase_b : base ≤ b := htbl (s, b) (by simp)
                have h1 : heapEvolve base st
                    (hupdate st.1 b (dpopG db "$ref"), st.2) :=
                  heapEvolve_hupdate base st.1 st.2 b _ hwf hbase_b
                have h2 := pipeline_h_spec fuel
                  (hupdate st.1 b (dpopG db "$ref"), st.2) b st3 base hp
                  (heapWF_hupdate _ _ _ _ hwf) hb
                have h3 := deref_h_spec fuel st3 rest st2 base hrun h2.2.1
                  (le_trans hb h2.1)
                  (fun e he => htbl e (by simp [he]))
                exact heapEvolve_trans base _ _ _
                  (heapEvolve_trans base _ _ _ h1 h2) h3
          · rw [if_neg hm] at hrun
            exact deref_h_spec (fuel + 1) st rest st2 base hrun hwf hb
              (fun e he => htbl e (by simp [he]))

/-- The embedding shadow likewise. -/
theorem apply_subs_h_spec : ∀ (fuel : Nat) (st : Heap × Nat)
    (tbl : List (String × Addr)) (st2 : Heap × Nat) (base : Nat),
    apply_subs_h fuel st tbl = some st2 →
    heapWF st.1 st.2 → base ≤ st.2 → (∀ e ∈ tbl, base ≤ e.2) →
    heapEvolve base st st2
  | fuel, st, [], st2, base => by
      intro hrun hwf _ _
      simp only [apply_subs_h, Option.some.injEq] at hrun
      subst hrun
      exact heapEvolve_refl base st hwf
  | 0, st, e :: rest, st2, base => by
      intro hrun
      simp [apply_subs_h] at hrun
  | fuel + 1, st, (s, b) :: rest, st2, base => by
      intro hrun hwf hb htbl
      unfold apply_subs_h at hrun
      cases hl : hlookup st.1 b with
      | none => rw [hl] at hrun; simp at hrun
      | some db =>
          rw [hl] at hrun
          dsimp only at hrun
          have hbase_b : base ≤ b := htbl (s, b) (by simp)
          by_cases hm : hmemH db "$sub" = true
          · rw [if_pos hm] at hrun
            have h1 : heapEvolve base st
                (hupdate st.1 b (dpopG db "$sub"), st.2) :=
              heapEvolve_hupdate base st.1 st.2 b _ hwf hbase_b
            by_cases hemp : (dpopG db "$sub").isEmpty = true
            · rw [if_pos hemp] at hrun
              simp only [option_some_bind] at hrun
              have h3 := apply_subs_h_spec fuel
                (hupdate st.1 b (dpopG db "$sub"), st.2) rest st2 base hrun
                (heapWF_hupdate _ _ _ _ hwf) hb
                (fun e he => htbl e (by simp [he]))
              exact heapEvolve_trans base _ _ _ h1 h3
            · rw [if_neg hemp] at hrun
              cases hp : pipeline_h fuel
                  (hupdate st.1 b (dpopG db "$sub"), st.2) b with
              | none => rw [hp] at hrun; simp at hrun
              | some st3 =>
                  rw [hp] at hrun
                  simp only [option_some_bind] at hrun
                  have h2 := pipeline_h_spec fuel
                    (hupdate st.1 b (dpopG db "$sub"), st.2) b st3 base hp
                    (heapWF_hupdate _ _ _ _ hwf) hb
                  have h3 := apply_subs_h_spec fuel st3 rest st2 base hrun
                    h2.2.1 (le_trans hb h2.1)
                    (fun e he => htbl e (by simp [he]))
                  exact heapEvolve_trans base _ _ _
                    (heapEvolve_trans base _ _ _ h1 h2) h3
          · rw [if_neg hm] at hrun
            by_cases hm2 : hmemH db "$sub." = true
            · rw [if_pos hm2] at hrun
              have h1 : heapEvolve base st
                  (hupdate st.1 b (dpopG db "$sub."), st.2) :=
                heapEvolve_hupdate base st.1 st.2 b _ hwf hbase_b
              by_cases hemp : (dpopG db "$sub.").isEmpty = true
              · rw [if_pos hemp] at hrun
                simp only [option_some_bind] at hrun
                have h3 := apply_subs_h_spec fuel
                  (hupdate st.1 b (dpopG db "$sub."), st.2) rest st2 base hrun
                  (heapWF_hupdate _ _ _ _ hwf) hb
                  (fun e he => htbl e (by simp [he]))
                exact heapEvolve_trans base _ _ _ h1 h3
              · rw [if_neg hemp] at hrun
                cases hp : pipeline_h fuel
                    (hupdate st.1 b (dpopG db "$sub."), st.2) b with
                | none => rw [hp] at hrun; simp at hrun
                | some st3 =>
                    rw [hp] at hrun
                    simp only [option_some_bind] at hrun
                    have h2 := pipeline_h_spec fuel
                      (hupdate st.1 b (dpopG db "$sub."), st.2) b st3 base hp
                      (heapWF_hupdate _ _ _ _ hwf) hb
                    have h3 := apply_subs_h_spec fuel st3 rest st2 base hrun
                      h2.2.1 (le_trans hb h2.1)
                      (fun e he => htbl e (by simp [he]))
                    exact heapEvolve_trans base _ _ _
                      (heapEvolve_trans base _ _ _ h1 h2) h3
            · rw [if_neg hm2] at hrun
              exact apply_subs_h_spec (fuel + 1) st rest st2 base hrun hwf hb
                (fun e he => htbl e (by simp [he]))

/-- One full compile + resolve pass mutates only its own deep copies. -/
theorem pipeline_h_spec : ∀ (fuel : Nat) (st : Heap × Nat) (projAddr : Addr)
    (st2 : Heap × Nat) (base : Nat),
    pipeline_h fuel st projAddr = some st2 →
    heapWF st.1 st.2 → base ≤ st.2 →
    heapEvolve base st st2
  | 0, st, a, st2, base => by
      intro hrun
      simp [pipeline_h] at hrun
  | fuel + 1, st, projAddr, st2, base => by
      intro hrun hwf hb
      unfold pipeline_h at hrun
      cases hdc : deepcopyAddr fuel st projAddr with
      | none => rw [hdc] at hrun; simp at hrun
      | some q =>
          obtain ⟨⟨h3, n3⟩, a2⟩ := q
          rw [hdc] at hrun
          simp only [option_some_bind] at hrun
          obtain ⟨hle, hwf3, hpres, hrange, dc, hdcl, hdcfresh⟩ :=
            deepcopyAddr_spec fuel st.1 st.2 projAddr h3 n3 a2 hdc hwf
          rw [hdcl] at hrun
          simp only [option_some_bind] at hrun
          have h0 : heapEvolve base st (h3, n3) :=
            ⟨hle, hwf3, fun b hb2 => hpres b (lt_of_lt_of_le hb2 hb)⟩
          have hrefsge : ∀ e ∈ extractRefsH h3 dc, base ≤ e.2 := by
            intro e he
            exact le_trans hb
              (extractTaggedH_ge _ h3 dc st.2 n3 hdcfresh e he)
          have hsubsge : ∀ e ∈ extractSubsH h3 dc, base ≤ e.2 := by
            intro e he
            exact le_trans hb
              (extractTaggedH_ge _ h3 dc st.2 n3 hdcfresh e he)
          by_cases hri : (extractRefsH h3 dc).isEmpty = true
          · rw [if_pos hri] at hrun
            by_cases hsi : (extractSubsH h3 dc).isEmpty = true
            · rw [if_pos hsi] at hrun
              simp only [Option.some.injEq] at hrun
              subst hrun
              exact h0
            · rw [if_neg hsi] at hrun
              have h2 := apply_subs_h_spec fuel (h3, n3) (extractSubsH h3 dc)
                st2 base hrun hwf3 (le_trans hb hle) hsubsge
              exact heapEvolve_trans base _ _ _ h0 h2
          · rw [if_neg hri] at hrun
            cases hd3 : deref_h fuel (h3, n3) (extractRefsH h3 dc) with
            | none => rw [hd3] at hrun; simp at hrun
            | some st3 =>
                rw [hd3] at hrun
                simp only [option_some_bind] at hrun
                have h1 := deref_h_spec fuel (h3, n3) (extractRefsH h3 dc)
                  st3 base hd3 hwf3 (le_trans hb hle) hrefsge
                by_cases hsi : (extractSubsH h3 dc).isEmpty = true
                · rw [if_pos hsi] at hrun
                  simp only [Option.some.injEq] at hrun
                  subst hrun
                  exact heapEvolve_trans base _ _ _ h0 h1
                · rw [if_neg hsi] at hrun
                  have h2 := apply_subs_h_spec fuel st3 (extractSubsH h3 dc)
                    st2 base hrun h1.2.1 (le_trans (le_trans hb hle) h1.1)
                    hsubsge
                  exact heapEvolve_trans base _ _ _
                    (heapEvolve_trans base _ _ _ h0 h1) h2

end

end MongoFrames
namespace MongoFrames

/-- C8: the caller's structured projection object is unchanged after the
compile and resolve passes complete.  Directive tags are popped only from the
deep copy made by the compiler (and from the copies the nested passes make),
so after a completed pass every pre-existing object — in particular the
caller's projection dictionary and every dictionary reachable from it — reads
exactly as it did before the call. -/
theorem caller_projection_unchanged (fuel : Nat) (h : Heap) (next : Nat)
    (projAddr : Addr) (h2 : Heap) (next2 : Nat)
    (hwf : heapWF h next)
    (hrun : pipeline_h fuel (h, next) projAddr = some (h2, next2)) :
    ∀ a, a < next → hlookup h2 a = hlookup h a := by
  have hev := pipeline_h_spec fuel (h, next) projAddr (h2, next2) next hrun
    hwf (le_refl _)
  exact hev.2.2

end MongoFrames
namespace MongoFrames

/-- Witness for C8: a projection `{author: {$ref: User, name: true}}` at
address 0 (nested directive dictionary at address 1).  After the completed
pass (which popped `$ref` from the deep copy at address 2, never from
address 1) the caller's nested directive dictionary still holds its `$ref`
tag. -/
theorem caller_projection_unchanged_witness :
    hlookup
      [(0, [("author", HVal.addr 1)]),
       (1, [("$ref", HVal.prim (.cls "User")),
            ("name", HVal.prim (.bool true))]),
       (2, [("name", HVal.prim (.bool true))]),
       (3, [("author", HVal.addr 2)]),
       (4, [("name", HVal.prim (.bool true))])] 1
      = some [("$ref", HVal.prim (.cls "User")),
              ("name", HVal.prim (.bool true))] :=
  (caller_projection_unchanged 6
      [(0, [("author", HVal.addr 1)]),
       (1, [("$ref", HVal.prim (.cls "User")),
            ("name", HVal.prim (.bool true))])]
      2 0
      [(0, [("author", HVal.addr 1)]),
       (1, [("$ref", HVal.prim (.cls "User")),
            ("name", HVal.prim (.bool true))]),
       (2, [("name", HVal.prim (.bool true))]),
       (3, [("author", HVal.addr 2)]),
       (4, [("name", HVal.prim (.bool true))])]
      5
      (by rw [heapWF_iff_keys]; decide)
      (by simp [pipeline_h, deref_h, apply_subs_h, deepcopyAddr, deepcopyDict,
            deepcopyVal, extractRefsH, extractSubsH, extractTaggedH,
            extractStep, hlookup, hupdate, hmemH, dlookupG, dpopG])
      1 (by decide)).trans (by decide)

end MongoFrames
